import Mathlib

/-!
Verification of the proto3 editor-intelligence core (hover provider,
definition provider) against its specification.

The development shallowly embeds the TypeScript sources:
  * the hover provider (`parseMessage`, `parseEnum`, `getMessageOrEnumInfo`,
    `getContainingEnum`) — the newer copy of `proto3Hover.ts`;
  * the definition provider (`findEnumOrMessageDefinition`,
    `findNestedDefinition`, `findBlockEnd`, `getTargetLocationInline`)
    from `proto3Definition.ts`.

Strings are modelled as `List Char`.  JavaScript regular expressions are
embedded as deterministic maximal-munch matchers; where the original
expression needs back-tracking (the optional field label, the
`map<K, V>` alternative and its comma split), the embedding reproduces
that back-tracking explicitly.  JavaScript's `\w` is `[A-Za-z0-9_]`
(ASCII), `\d` is `[0-9]`, and `\s` is modelled by the ASCII whitespace
characters (space, tab, CR, LF, VT, FF); non-ASCII whitespace is not
modelled.

External collaborators (workspace configuration, glob search, import
extraction) are out of scope of the core and enter as parameters:
the resolvers receive the requesting document's path, the list of files
obtained from its `import` statements, the list of `*.proto` files found
under the configured search roots, and a read function
`FilePath → Option content` (`none` models a failing `fs.readFileSync`).
-/

namespace Proto3

/-- JavaScript `\w`: ASCII letters, digits and underscore. -/
def isWordChar (c : Char) : Bool :=
  c.isAlphanum || c == '_'

/-- JavaScript `\s`, restricted to ASCII whitespace. -/
def isSpaceChar (c : Char) : Bool :=
  c == ' ' || c == '\t' || c == '\n' || c == '\r' || c == '\x0b' || c == '\x0c'

/-- Maximal munch: number of leading characters satisfying `p`. -/
def pMany (p : Char → Bool) : List Char → Nat
  | [] => 0
  | c :: cs => if p c then pMany p cs + 1 else 0

/-- Literal match: `pLit pat xs = some pat.length` iff `pat` is a prefix of `xs`. -/
def pLit : List Char → List Char → Option Nat
  | [], _ => some 0
  | _ :: _, [] => none
  | p :: ps, x :: xs => if x = p then (pLit ps xs).map (· + 1) else none

/-- Single-character match. -/
def pChar (c : Char) : List Char → Option Nat
  | [] => none
  | x :: _ => if x = c then some 1 else none

/-- Sequencing of consumed-length matchers. -/
def pseq (p q : List Char → Option Nat) (xs : List Char) : Option Nat :=
  match p xs with
  | none => none
  | some a =>
    match q (xs.drop a) with
    | none => none
    | some b => some (a + b)

/-- `\s*` as a matcher (never fails). -/
def pSpaces (xs : List Char) : Option Nat :=
  some (pMany isSpaceChar xs)

/-- `\s+`: at least one whitespace character. -/
def pSpaces1 (xs : List Char) : Option Nat :=
  let n := pMany isSpaceChar xs
  if n = 0 then none else some n

/-- Scan for a character, returning the length up to and including it
(JS `//.*\n`: the `.*` stops before the newline, which is then consumed). -/
def pUntilChar (c : Char) : List Char → Option Nat
  | [] => none
  | x :: xs => if x = c then some 1 else (pUntilChar c xs).map (· + 1)

/-- Scan for the two-character terminator `*/`, returning the length up to
and including it (JS `[\s\S]*?\*\//`, lazy: first occurrence wins). -/
def pUntilStarSlash : List Char → Option Nat
  | [] => none
  | '*' :: '/' :: _ => some 2
  | _ :: xs => (pUntilStarSlash xs).map (· + 1)

/-- One unit of the leading-comment run: `\/\/.*\n` or `\/\*[\s\S]*?\*\/\s*`. -/
def pCommentUnit (xs : List Char) : Option Nat :=
  match xs with
  | '/' :: '/' :: rest => (pUntilChar '\n' rest).map (· + 2)
  | '/' :: '*' :: rest =>
    match pUntilStarSlash rest with
    | none => none
    | some k => some (2 + k + pMany isSpaceChar (rest.drop k))
  | _ => none

/-- Greedy Kleene star of `pCommentUnit` (the regex group
`((?:\/\/.*\n|\/\*[\s\S]*?\*\/\s*)*)`).  Fuel-driven; each unit consumes at
least one character, so fuel `xs.length` is always sufficient. -/
def pCommentRunGo : Nat → List Char → Nat
  | 0, _ => 0
  | fuel + 1, xs =>
    match pCommentUnit xs with
    | none => 0
    | some n => n + pCommentRunGo fuel (xs.drop n)

def pCommentRun (xs : List Char) : Nat :=
  pCommentRunGo xs.length xs

/-! ### Small string utilities (JS `split`, `trim`, `indexOf`, `parseInt`, `Set`) -/

/-- JS `str.split(sep)` for a single-character separator: every piece kept,
`"".split` gives `[""]`. -/
def splitChar (sep : Char) : List Char → List (List Char)
  | [] => [[]]
  | c :: cs =>
    if c = sep then [] :: splitChar sep cs
    else
      match splitChar sep cs with
      | [] => [[c]]
      | l :: ls => (c :: l) :: ls

/-- JS `content.split('\n')`. -/
def splitNl (xs : List Char) : List (List Char) :=
  splitChar '\n' xs

/-- JS `String.prototype.trim`. -/
def trimList (xs : List Char) : List Char :=
  ((xs.dropWhile isSpaceChar).reverse.dropWhile isSpaceChar).reverse

/-- Join with `'\n'` (JS `Array.prototype.join('\n')`). -/
def joinNl : List (List Char) → List Char
  | [] => []
  | [l] => l
  | l :: ls => l ++ '\n' :: joinNl ls

/-- Value of a digit string (JS `parseInt` on a `\d+` capture). -/
def digitsVal (xs : List Char) : Nat :=
  xs.foldl (fun a c => 10 * a + (c.toNat - '0'.toNat)) 0

/-- Number of occurrences of a character (JS `(line.match(/\{/g) || []).length`). -/
def countChar (c : Char) (xs : List Char) : Nat :=
  xs.countP (· = c)

/-- JS `haystack.indexOf(needle)`: index of the first occurrence of `needle`
as a contiguous sublist. -/
def subIndexOf (needle : List Char) : List Char → Option Nat
  | [] => if needle = [] then some 0 else none
  | x :: xs =>
    if needle.isPrefixOf (x :: xs) then some 0
    else (subIndexOf needle xs).map (· + 1)

/-- JS `Array.from(new Set(files))`: deduplication keeping the first
occurrence of each element, in order. -/
def dedupFirstGo (seen : List (List Char)) : List (List Char) → List (List Char)
  | [] => []
  | x :: xs =>
    if seen.contains x then dedupFirstGo seen xs
    else x :: dedupFirstGo (x :: seen) xs

def dedupFirst (xs : List (List Char)) : List (List Char) :=
  dedupFirstGo [] xs

/-! ### Locating `message NAME {` / `enum NAME {` openers

Embeds `new RegExp("((?:\\/\\/.*\\n|\\/\\*[\\s\\S]*?\\*\\/\\s*)*)\\s*" + kw +
"\\s+" + name + "\\s*\\{").exec(content)` from `parseMessage`/`parseEnum`:
a leftmost match of (leading comment run, `\s*`, keyword, `\s+`, the literal
name, `\s*`, `{`).  `matchOpenerAt` returns the comment-run length (regex
group 1) and the total match length. -/

def msgKw : List Char := "message".toList
def enumKw : List Char := "enum".toList

/-- Match the opener pattern at the start of `xs`; returns
`(comment-run length, total length)`.  The match always ends at the `{`. -/
def matchOpenerAt (kw name : List Char) (xs : List Char) : Option (Nat × Nat) :=
  let a := pCommentRun xs
  match pseq pSpaces (pseq (pLit kw) (pseq pSpaces1
      (pseq (pLit name) (pseq pSpaces (pChar '{'))))) (xs.drop a) with
  | none => none
  | some b => some (a, a + b)

/-- Leftmost match: try `matchOpenerAt` at indices `i, i+1, …`. -/
def findOpenerAux (kw name : List Char) : List Char → Nat → Option (Nat × Nat × Nat)
  | xs, i =>
    match matchOpenerAt kw name xs with
    | some (a, n) => some (i, a, n)
    | none =>
      match xs with
      | [] => none
      | _ :: rest => findOpenerAux kw name rest (i + 1)

/-- First match of the `message NAME {` opener pattern in `content`:
`(start index, comment-run length, match length)`. -/
def findMessageOpener (name content : List Char) : Option (Nat × Nat × Nat) :=
  findOpenerAux msgKw name content 0

/-! ### Matching the closing brace

Embeds the character loop of `parseMessage`: starting at the opening brace,
`braceCount` is incremented on `{`, decremented on `}`, and the scan stops
when it reaches `0` (JS numbers may go negative, hence `Int`).  `findCloseRel`
takes the suffix of the content starting at the opening brace and returns the
relative index of the matching `}`. -/

def findCloseGo : List Char → Int → Nat → Option Nat
  | [], _, _ => none
  | c :: cs, cnt, i =>
    if c = '{' then findCloseGo cs (cnt + 1) (i + 1)
    else if c = '}' then
      if cnt - 1 = 0 then some i else findCloseGo cs (cnt - 1) (i + 1)
    else findCloseGo cs cnt (i + 1)

def findCloseRel (xs : List Char) : Option Nat :=
  findCloseGo xs 0 0

/-! ### Leading-comment extraction

Embeds `commentPart.match(/(\/\/.*|\/\*[\s\S]*?\*\/)/g)` followed by
`.map(c => c.replace(/^\/\/\s?/, '').replace(/^\/\*\s?/, '')
.replace(/\s?\*\/$/, '').trim()).join('\n')`. -/

/-- All comment pieces in a string, in order (global regex scan; a `//` piece
runs to the end of the line, a `/* */` piece to the first terminator).
Fuel-driven; every step consumes at least one character, so fuel
`xs.length` is always sufficient. -/
def commentPiecesGo : Nat → List Char → List (List Char)
  | 0, _ => []
  | _ + 1, [] => []
  | fuel + 1, '/' :: '/' :: rest =>
    let n := pMany (· ≠ '\n') rest
    ('/' :: '/' :: rest.take n) :: commentPiecesGo fuel (rest.drop n)
  | fuel + 1, '/' :: '*' :: rest =>
    (match pUntilStarSlash rest with
     | some k => ('/' :: '*' :: rest.take k) :: commentPiecesGo fuel (rest.drop k)
     | none => commentPiecesGo fuel ('*' :: rest))
  | fuel + 1, _ :: rest => commentPiecesGo fuel rest

def commentPieces (xs : List Char) : List (List Char) :=
  commentPiecesGo xs.length xs

/-- `c.replace(/^\/\/\s?/, '')`: strip a leading `//` plus at most one
whitespace character. -/
def stripLineMark (xs : List Char) : List Char :=
  match xs with
  | '/' :: '/' :: c :: rest => if isSpaceChar c then rest else c :: rest
  | '/' :: '/' :: [] => []
  | _ => xs

/-- `c.replace(/^\/\*\s?/, '')`. -/
def stripBlockOpen (xs : List Char) : List Char :=
  match xs with
  | '/' :: '*' :: c :: rest => if isSpaceChar c then rest else c :: rest
  | '/' :: '*' :: [] => []
  | _ => xs

/-- `c.replace(/\s?\*\/$/, '')`: strip a trailing `*/`, plus at most one
whitespace character before it. -/
def stripBlockClose (xs : List Char) : List Char :=
  match xs.reverse with
  | '/' :: '*' :: c :: rest => if isSpaceChar c then rest.reverse else (c :: rest).reverse
  | '/' :: '*' :: [] => []
  | _ => xs

/-- Cleaned comment text of one piece. -/
def cleanCommentPiece (xs : List Char) : List Char :=
  trimList (stripBlockClose (stripBlockOpen (stripLineMark xs)))

/-- The `comment` attached to a message/enum from the text preceding its
opener (`undefined` when the regex finds no piece). -/
def extractComment (commentPart : List Char) : Option (List Char) :=
  match commentPieces commentPart with
  | [] => none
  | ps => some (joinNl (ps.map cleanCommentPiece))

/-! ### The field-line grammar

Embeds the regex of `parseMessage`'s per-line field test:
`/^\s*(optional|required|repeated)?\s*(?:(map)\s*<\s*([^<>]+)\s*,\s*([^<>]+)\s*>|(\w+(?:\.\w+)*))\s+(\w+)\s*=\s*(\d+)(?:\s*\[([\s\w=,]+)\])?\s*;(?:\s*\/\/\s*(.*))?$/`
applied to the trimmed line.  The deterministic embedding reproduces the
regex's back-tracking: a matched label that cannot be completed falls back
to the label-less alternative, a matched `map<…>` head whose continuation
fails falls back to reading `map` as an ordinary dotted type name, and the
comma of `map<K, V>` is the last comma that leaves a non-empty value. -/

structure FieldMatchRes where
  label : Option (List Char)
  ftype : List Char
  fname : List Char
  digits : List Char
  inline : Option (List Char)
deriving DecidableEq, Repr

/-- `\w+(?:\.\w+)*` as a maximal munch (0 = no match).  Fuel-driven; every
dotted unit consumes at least two characters. -/
def pDotUnitsGo : Nat → List Char → Nat
  | 0, _ => 0
  | fuel + 1, xs =>
    match xs with
    | '.' :: rest =>
      let w := pMany isWordChar rest
      if w = 0 then 0 else 1 + w + pDotUnitsGo fuel (rest.drop w)
    | _ => 0

def pDottedWord (xs : List Char) : Nat :=
  let w := pMany isWordChar xs
  if w = 0 then 0 else w + pDotUnitsGo xs.length (xs.drop w)

/-- Comma split of the `map<…>` interior (the characters strictly between
`<` and `>`): the regex `\s*([^<>]+)\s*,\s*([^<>]+)\s*>` picks the last
comma that leaves a non-empty value; the key capture runs from the first
non-space character (or the single space just before the comma, when
everything before it is whitespace) up to the comma. -/
def mapSplitGo (run : List Char) (lead : Nat) : Nat → Option (List Char × List Char)
  | 0 => none
  | i + 1 =>
    let j := i + 1
    if run.getD j ' ' = ',' ∧ j < run.length then
      let tail := run.drop (j + 1)
      let value := tail.drop (pMany isSpaceChar tail)
      if value ≠ [] then
        if lead < j then some ((run.drop lead).take (j - lead), value)
        else some ([' '], value)
      else mapSplitGo run lead i
    else mapSplitGo run lead i

def mapSplit (run : List Char) : Option (List Char × List Char) :=
  mapSplitGo run (pMany isSpaceChar run) (run.length - 1)

/-- The `map\s*<\s*([^<>]+)\s*,\s*([^<>]+)\s*>` alternative.  On success,
returns the synthesized type string `` `map<${mapKey}, ${mapValue}>` `` and
the rest of the input after `>`. -/
def mapBranch (xs : List Char) : Option (List Char × List Char) :=
  match pLit "map".toList xs with
  | none => none
  | some _ =>
    let x1 := xs.drop 3
    let x2 := x1.drop (pMany isSpaceChar x1)
    match x2 with
    | '<' :: x3 =>
      let runLen := pMany (fun c => !(c == '<' || c == '>')) x3
      match x3.drop runLen with
      | '>' :: rest =>
        (mapSplit (x3.take runLen)).map
          (fun kv => ("map<".toList ++ kv.1 ++ ", ".toList ++ kv.2 ++ ['>'], rest))
      | _ => none
    | _ => none

/-- `(?:\s*\[([\s\w=,]+)\])?`: the bracketed field options, ignored. -/
def tryOptions (xs : List Char) : Option (List Char) :=
  let x1 := xs.drop (pMany isSpaceChar xs)
  match x1 with
  | '[' :: x2 =>
    let n := pMany (fun c => isSpaceChar c || isWordChar c || c == '=' || c == ',') x2
    if n = 0 then none
    else
      match x2.drop n with
      | ']' :: rest => some rest
      | _ => none
  | _ => none

/-- `(?:\s*\/\/\s*(.*))?$`: either the end of the line, or an inline
comment running to the end of the line. -/
def inlineOrEnd (xs : List Char) : Option (Option (List Char)) :=
  if xs = [] then some none
  else
    match xs.drop (pMany isSpaceChar xs) with
    | '/' :: '/' :: r2 => some (some (r2.drop (pMany isSpaceChar r2)))
    | _ => none

/-- `\s+(\w+)\s*=\s*(\d+)(?:\s*\[([\s\w=,]+)\])?\s*;(?:\s*\/\/\s*(.*))?$`:
everything after the type. -/
def fieldTail (lbl : Option (List Char)) (ty : List Char) (xs : List Char) :
    Option FieldMatchRes :=
  let s1 := pMany isSpaceChar xs
  if s1 = 0 then none
  else
    let x1 := xs.drop s1
    let n1 := pMany isWordChar x1
    if n1 = 0 then none
    else
      let fname := x1.take n1
      let x2 := x1.drop n1
      let x3 := x2.drop (pMany isSpaceChar x2)
      match x3 with
      | '=' :: x4 =>
        let x5 := x4.drop (pMany isSpaceChar x4)
        let d := pMany Char.isDigit x5
        if d = 0 then none
        else
          let digits := x5.take d
          let x6 := x5.drop d
          let x7 :=
            match tryOptions x6 with
            | some rest => rest
            | none => x6
          let x8 := x7.drop (pMany isSpaceChar x7)
          match x8 with
          | ';' :: rest => (inlineOrEnd rest).map (fun ic => ⟨lbl, ty, fname, digits, ic⟩)
          | _ => none
      | _ => none

/-- The type alternative and everything after it, for a fixed label choice. -/
def fieldCore (lbl : Option (List Char)) (xs : List Char) : Option FieldMatchRes :=
  let x1 := xs.drop (pMany isSpaceChar xs)
  let wordAttempt : Option FieldMatchRes :=
    let w := pDottedWord x1
    if w = 0 then none else fieldTail lbl (x1.take w) (x1.drop w)
  match mapBranch x1 with
  | some tyRest =>
    match fieldTail lbl tyRest.1 tyRest.2 with
    | some fm => some fm
    | none => wordAttempt
  | none => wordAttempt

/-- `(optional|required|repeated)` as a literal prefix (the three keywords
are mutually non-prefixing, so at most one alternative applies). -/
def pickLabel (xs : List Char) : Option (List Char × List Char) :=
  if ("optional".toList).isPrefixOf xs then some ("optional".toList, xs.drop 8)
  else if ("required".toList).isPrefixOf xs then some ("required".toList, xs.drop 8)
  else if ("repeated".toList).isPrefixOf xs then some ("repeated".toList, xs.drop 8)
  else none

/-- The whole field-line regex on a (trimmed) line. -/
def matchFieldLine (t : List Char) : Option FieldMatchRes :=
  let t0 := t.drop (pMany isSpaceChar t)
  match pickLabel t0 with
  | some lblRest =>
    match fieldCore (some lblRest.1) lblRest.2 with
    | some fm => some fm
    | none => fieldCore none t0
  | none => fieldCore none t0

/-- `/^message\s+(\w+)\s*\{/` (resp. `enum`) on a trimmed line: the nested
declaration openers recognised inside a message body. -/
def matchNestedOpener (kw t : List Char) : Option (List Char) :=
  match pLit kw t with
  | none => none
  | some k =>
    let x1 := t.drop k
    let s := pMany isSpaceChar x1
    if s = 0 then none
    else
      let x2 := x1.drop s
      let w := pMany isWordChar x2
      if w = 0 then none
      else
        let x3 := x2.drop w
        match x3.drop (pMany isSpaceChar x3) with
        | '{' :: _ => some (x2.take w)
        | _ => none

/-- The enum-value regex `/^\s*(\w+)\s*=\s*(\d+)\s*;(?:\s*\/\/\s*(.*))?$/`
of the current hover provider's `parseEnum`. -/
def matchEnumValue000 (t : List Char) : Option (List Char × List Char × Option (List Char)) :=
  let x0 := t.drop (pMany isSpaceChar t)
  let w := pMany isWordChar x0
  if w = 0 then none
  else
    let nm := x0.take w
    let x1 := x0.drop w
    let x2 := x1.drop (pMany isSpaceChar x1)
    match x2 with
    | '=' :: x3 =>
      let x4 := x3.drop (pMany isSpaceChar x3)
      let d := pMany Char.isDigit x4
      if d = 0 then none
      else
        let digits := x4.take d
        let x5 := x4.drop d
        let x6 := x5.drop (pMany isSpaceChar x5)
        match x6 with
        | ';' :: rest => (inlineOrEnd rest).map (fun ic => (nm, digits, ic))
        | _ => none
    | _ => none

/-- The enum-value regex `/^\s*(\w+)\s*=\s*(\d+)(?:\s*;\s*\/\/\s*(.*))?$/`
of the older hover provider copy (`proto3Hover.ts`): the semicolon lives
inside the optional comment group. -/
def matchEnumValueSrc (t : List Char) : Option (List Char × List Char × Option (List Char)) :=
  let x0 := t.drop (pMany isSpaceChar t)
  let w := pMany isWordChar x0
  if w = 0 then none
  else
    let nm := x0.take w
    let x1 := x0.drop w
    let x2 := x1.drop (pMany isSpaceChar x1)
    match x2 with
    | '=' :: x3 =>
      let x4 := x3.drop (pMany isSpaceChar x3)
      let d := pMany Char.isDigit x4
      if d = 0 then none
      else
        let digits := x4.take d
        let x5 := x4.drop d
        if x5 = [] then some (nm, digits, none)
        else
          let x6 := x5.drop (pMany isSpaceChar x5)
          match x6 with
          | ';' :: rest =>
            let x7 := rest.drop (pMany isSpaceChar rest)
            match x7 with
            | '/' :: '/' :: r2 => some (nm, digits, some (r2.drop (pMany isSpaceChar r2)))
            | _ => none
          | _ => none
    | _ => none

/-! ### Symbol info records (the `MessageInfo`/`FieldInfo`/`EnumInfo`/
`EnumValueInfo` interfaces of the hover provider) -/

structure FieldInfo where
  name : List Char
  ftype : List Char
  number : Nat
  label : Option (List Char)
  comment : Option (List Char)
deriving DecidableEq, Repr

structure EnumValueInfo where
  name : List Char
  number : Nat
  comment : Option (List Char)
deriving DecidableEq, Repr

structure EnumInfo where
  name : List Char
  values : List EnumValueInfo
  comment : Option (List Char)
  rawSource : List Char
deriving DecidableEq, Repr

structure MessageInfo where
  name : List Char
  fields : List FieldInfo
  nestedMessages : List MessageInfo
  nestedEnums : List EnumInfo
  comment : Option (List Char)
  rawSource : List Char

/-- `allComments = [...pendingComments]; if (inlineComment)
allComments.push(inlineComment.trim()); comment = allComments.length > 0 ?
allComments.join('\n') : undefined`. -/
def commentsJoin (pending : List (List Char)) (inline : Option (List Char)) :
    Option (List Char) :=
  let all := pending ++
    (match inline with
     | some ic => if ic = [] then [] else [trimList ic]
     | none => [])
  if all = [] then none else some (joinNl all)

/-! ### The line walk over a message body (`parseMessage`, lines 407–483)

The walk keeps `pendingComments` and `braceDepth` and, at depth `0`,
recognises nested `message`/`enum` openers and field lines.  Parsing a
nested construct replays `bodyContent` through a recursive call; since the
parsed child does not influence the walk itself, the embedding first
collects the fields and the nested declaration names in order, and the
recursive calls are made afterwards. -/

structure MsgPassAcc where
  fields : List FieldInfo
  msgNames : List (List Char)
  enumNames : List (List Char)
  pending : List (List Char)
  depth : Int
deriving Repr

def msgLineStep (acc : MsgPassAcc) (line : List Char) : MsgPassAcc :=
  let t := trimList line
  let acc' :=
    if ("//".toList).isPrefixOf t && acc.depth == 0 then
      let c := trimList (t.drop 2)
      if c = [] then acc else { acc with pending := acc.pending ++ [c] }
    else if t = [] || t = ['{'] || t = ['}'] then
      if acc.depth == 0 then { acc with pending := [] } else acc
    else if acc.depth == 0 then
      match matchNestedOpener msgKw t with
      | some nm => { acc with msgNames := acc.msgNames ++ [nm], pending := [] }
      | none =>
        match matchNestedOpener enumKw t with
        | some nm => { acc with enumNames := acc.enumNames ++ [nm], pending := [] }
        | none =>
          match matchFieldLine t with
          | some fm =>
            { acc with
              fields := acc.fields ++
                [{ name := fm.fname, ftype := fm.ftype, number := digitsVal fm.digits,
                   label := fm.label, comment := commentsJoin acc.pending fm.inline }],
              pending := [] }
          | none => { acc with pending := [] }
    else acc
  { acc' with
    depth := acc'.depth + (countChar '{' line : Int) - (countChar '}' line : Int) }

def msgPassInit : MsgPassAcc := ⟨[], [], [], [], 0⟩

def msgBodyPass (lines : List (List Char)) : MsgPassAcc :=
  lines.foldl msgLineStep msgPassInit

/-! ### The line walk over an enum body (`parseEnum`, lines 512–554; no
depth tracking), parametrised by the enum-value line matcher. -/

structure EnumPassAcc where
  values : List EnumValueInfo
  pending : List (List Char)
deriving DecidableEq, Repr

def enumLineStep (matcher : List Char → Option (List Char × List Char × Option (List Char)))
    (acc : EnumPassAcc) (line : List Char) : EnumPassAcc :=
  let t := trimList line
  if ("//".toList).isPrefixOf t then
    let c := trimList (t.drop 2)
    if c = [] then acc else { acc with pending := acc.pending ++ [c] }
  else if t = [] || t = ['{'] || t = ['}'] then
    { acc with pending := [] }
  else
    match matcher t with
    | some m =>
      { values := acc.values ++ [⟨m.1, digitsVal m.2.1, commentsJoin acc.pending m.2.2⟩],
        pending := [] }
    | none => { acc with pending := [] }

def enumPassInit : EnumPassAcc := ⟨[], []⟩

/-! ### `parseEnum`

The enum span is located by
`((?:\/\/.*\n|\/\*[\s\S]*?\*\/\s*)*)\s*enum\s+NAME\s*\{([\s\S]*?)\n\s*\}`:
after the opener, the lazy group 2 ends at the first newline that is
followed by whitespace and a `}`. -/

/-- Scan for the first `\n` followed by `\s*}`; returns the body length up
to that newline and the whitespace length after it. -/
def findBodyEndGo : List Char → Nat → Option (Nat × Nat)
  | [], _ => none
  | c :: cs, j =>
    if c = '\n' then
      let w := pMany isSpaceChar cs
      match cs.drop w with
      | '}' :: _ => some (j, w)
      | _ => findBodyEndGo cs (j + 1)
    else findBodyEndGo cs (j + 1)

/-- Match the whole enum regex at the start of `xs`; returns
`(comment-run length, opener length up to and including the `{`,
body length, terminator whitespace length)`. -/
def matchEnumAt (name xs : List Char) : Option (Nat × Nat × Nat × Nat) :=
  let a := pCommentRun xs
  match pseq pSpaces (pseq (pLit enumKw) (pseq pSpaces1
      (pseq (pLit name) (pseq pSpaces (pChar '{'))))) (xs.drop a) with
  | none => none
  | some b =>
    match findBodyEndGo (xs.drop (a + b)) 0 with
    | none => none
    | some jw => some (a, a + b, jw.1, jw.2)

/-- Leftmost match of the enum regex:
`(start index, comment-run length, opener length, body length, ws length)`. -/
def findEnumSpanAux (name : List Char) : List Char → Nat → Option (Nat × Nat × Nat × Nat × Nat)
  | xs, i =>
    match matchEnumAt name xs with
    | some (a, oLen, bLen, wLen) => some (i, a, oLen, bLen, wLen)
    | none =>
      match xs with
      | [] => none
      | _ :: rest => findEnumSpanAux name rest (i + 1)

def findEnumSpan (name content : List Char) : Option (Nat × Nat × Nat × Nat × Nat) :=
  findEnumSpanAux name content 0

def emptyEnum (name : List Char) : EnumInfo :=
  ⟨name, [], none, []⟩

/-- `parseEnum` of the current hover provider. -/
def parseEnum (name content : List Char) : EnumInfo :=
  match findEnumSpan name content with
  | none => emptyEnum name
  | some (s, a, oLen, bLen, wLen) =>
    let total := oLen + bLen + 1 + wLen + 1
    let raw := (content.drop s).take total
    let cmt := extractComment ((content.drop s).take a)
    let body := (content.drop (s + oLen)).take bLen
    let res := (splitNl body).foldl (enumLineStep matchEnumValue000) enumPassInit
    { name := name, values := res.values, comment := cmt, rawSource := raw }

/-! ### `parseMessage`

Locates the first `message NAME {` opener (with leading comment run),
finds the matching closing brace by explicit brace counting, walks the
body line by line, and recursively parses nested declarations against the
same `bodyContent`.  The recursion is fuel-driven with fuel
`content.length`: every recursive call shrinks the content by at least the
opener length, so the fuel never runs out on any reachable call. -/

def emptyMessage (name : List Char) : MessageInfo :=
  ⟨name, [], [], [], none, []⟩

def parseMessageCore (recM : List Char → List Char → MessageInfo)
    (name content : List Char) : MessageInfo :=
  match findMessageOpener name content with
  | none => emptyMessage name
  | some (s, a, len) =>
    let o := s + len - 1
    match findCloseRel (content.drop o) with
    | none => emptyMessage name
    | some r =>
      let e := o + r
      let raw := (content.drop s).take (e + 1 - s)
      let cmt := extractComment ((content.drop s).take a)
      let body := (content.drop (o + 1)).take (e - (o + 1))
      let p := msgBodyPass (splitNl body)
      { name := name, fields := p.fields,
        nestedMessages := p.msgNames.map (fun nm => recM nm body),
        nestedEnums := p.enumNames.map (fun nm => parseEnum nm body),
        comment := cmt, rawSource := raw }

def parseMessageGo : Nat → List Char → List Char → MessageInfo
  | 0, name, content => parseMessageCore (fun nm _ => emptyMessage nm) name content
  | fuel + 1, name, content => parseMessageCore (parseMessageGo fuel) name content

def parseMessage (name content : List Char) : MessageInfo :=
  parseMessageGo content.length name content

/-! ### The hover provider's symbol resolution (`getMessageOrEnumInfo`)

Candidate files, in order: the requesting document itself, the files
reachable from its `import` statements, and every `*.proto` file found
under each configured search root; the list is deduplicated keeping first
occurrences (`Array.from(new Set(files))`).  Each file is read inside
`try { … } catch { continue }`: a failing read skips the candidate.  Per
file, the package declaration is extracted with `/package\s+([^;]+);/`,
every `\bmessage\s+(\w+)\s*{` / `\benum\s+(\w+)\s*{` declaration is
enumerated, and the target is matched by simple name, fully qualified
name, or package-stripped path with descent into nested declarations. -/

inductive SymbolInfo where
  | msg (m : MessageInfo)
  | enm (e : EnumInfo)

/-- `/package\s+([^;]+);/` at one position (unanchored scan happens in
`findPackageAux`).  The capture is everything from the first non-space
character after `package` up to the first `;` (with a one-space backtrack
when the `;` immediately follows the whitespace). -/
def matchPackageAt (xs : List Char) : Option (List Char) :=
  match pLit "package".toList xs with
  | none => none
  | some _ =>
    let x1 := xs.drop 7
    let a := pMany isSpaceChar x1
    if a = 0 then none
    else
      let x2 := x1.drop a
      let b := pMany (· ≠ ';') x2
      if b = 0 then
        match x2 with
        | ';' :: _ => if 2 ≤ a then some [' '] else none
        | _ => none
      else
        match x2.drop b with
        | ';' :: _ => some (x2.take b)
        | _ => none

def findPackageAux : List Char → Option (List Char)
  | [] => none
  | c :: rest =>
    match matchPackageAt (c :: rest) with
    | some p => some p
    | none => findPackageAux rest

/-- `packageMatch ? packageMatch[1] : ''`. -/
def packageOfHover (content : List Char) : List Char :=
  (findPackageAux content).getD []

/-- `(message|enum)\s+(\w+)\s*{` at one position, returning the captured
name and the match length. -/
def matchDeclAt (kw xs : List Char) : Option (List Char × Nat) :=
  match pLit kw xs with
  | none => none
  | some k =>
    let x1 := xs.drop k
    let s := pMany isSpaceChar x1
    if s = 0 then none
    else
      let x2 := x1.drop s
      let w := pMany isWordChar x2
      if w = 0 then none
      else
        let x3 := x2.drop w
        let s2 := pMany isSpaceChar x3
        match x3.drop s2 with
        | '{' :: _ => some (x2.take w, k + s + w + s2 + 1)
        | _ => none

/-- Global scan `content.match(/\bkw\s+(\w+)\s*{/g)`: all declared names,
in order.  The `Bool` flag records whether the current position sits at a
word boundary.  Fuel-driven; every step consumes at least one character. -/
def declScanGo (kw : List Char) : Nat → List Char → Bool → List (List Char)
  | 0, _, _ => []
  | fuel + 1, xs, bnd =>
    match xs with
    | [] => []
    | c :: rest =>
      if bnd then
        match matchDeclAt kw xs with
        | some (nm, len) => nm :: declScanGo kw fuel (xs.drop len) true
        | none => declScanGo kw fuel rest (!isWordChar c)
      else declScanGo kw fuel rest (!isWordChar c)

/-- Names of all root-level-or-not `message`/`enum` declarations found by
the global regex. -/
def declNames (kw content : List Char) : List (List Char) :=
  declScanGo kw content.length content true

/-- The nested-name walk of `getMessageOrEnumInfo` (lines 300–320): each
remaining part is looked up in `nestedMessages`, then `nestedEnums`, the
accumulated name being dot-joined; descending below an enum fails. -/
def hoverTraverse : SymbolInfo → List (List Char) → Option SymbolInfo
  | info, [] => some info
  | .msg m, nx :: rest =>
    (match m.nestedMessages.find? (fun n => n.name == nx) with
     | some nmsg => hoverTraverse (.msg { nmsg with name := m.name ++ '.' :: nmsg.name }) rest
     | none =>
       match m.nestedEnums.find? (fun n => n.name == nx) with
       | some nen => hoverTraverse (.enm { nen with name := m.name ++ '.' :: nen.name }) rest
       | none => none)
  | .enm _, _ :: _ => none

/-- The message loop of `getMessageOrEnumInfo` (lines 283–330). -/
def hoverMsgLoop (content pkg target : List Char) (matchParts : List (List Char))
    (matchRoot : List Char) : List (List Char) → Option SymbolInfo
  | [] => none
  | nm :: rest =>
    let fullName := if pkg = [] then nm else pkg ++ '.' :: nm
    if nm = matchRoot ∨ fullName = target ∨ fullName = matchRoot then
      let info := parseMessage nm content
      if fullName = target then some (.msg info)
      else if 1 < matchParts.length ∧ nm = matchRoot then
        match hoverTraverse (.msg info) matchParts.tail with
        | some res => some res
        | none => hoverMsgLoop content pkg target matchParts matchRoot rest
      else if nm = matchRoot ∧ matchParts.length = 1 then some (.msg info)
      else hoverMsgLoop content pkg target matchParts matchRoot rest
    else hoverMsgLoop content pkg target matchParts matchRoot rest

/-- The enum loop of `getMessageOrEnumInfo` (lines 333–346). -/
def hoverEnumLoop (content pkg target : List Char) (matchParts : List (List Char))
    (matchRoot : List Char) : List (List Char) → Option SymbolInfo
  | [] => none
  | nm :: rest =>
    let fullName := if pkg = [] then nm else pkg ++ '.' :: nm
    if (nm = matchRoot ∨ fullName = target ∨ fullName = matchRoot) ∧ matchParts.length = 1
    then some (.enm (parseEnum nm content))
    else hoverEnumLoop content pkg target matchParts matchRoot rest

/-- Matching a target name against one candidate file's content
(the per-file body of `getMessageOrEnumInfo`). -/
def hoverFileMatch (content target : List Char) : Option SymbolInfo :=
  let pkg := packageOfHover content
  let parts := splitChar '.' target
  let matchParts :=
    if pkg ≠ [] ∧ (pkg ++ ['.']).isPrefixOf target
    then splitChar '.' (target.drop (pkg.length + 1))
    else parts
  let matchRoot := matchParts.headD []
  match hoverMsgLoop content pkg target matchParts matchRoot (declNames msgKw content) with
  | some i => some i
  | none => hoverEnumLoop content pkg target matchParts matchRoot (declNames enumKw content)

/-- The candidate-file loop: an unreadable file is skipped
(`try { … } catch (error) { continue; }`). -/
def hoverResolveGo (read : List Char → Option (List Char)) (target : List Char) :
    List (List Char) → Option SymbolInfo
  | [] => none
  | f :: fs =>
    match read f with
    | none => hoverResolveGo read target fs
    | some content =>
      match hoverFileMatch content target with
      | some i => some i
      | none => hoverResolveGo read target fs

/-- `getMessageOrEnumInfo`, with the external collaborators as parameters:
`docPath` is the requesting document, `importFiles` the files found for its
`import` statements, `rootFiles` the `*.proto` files under the configured
search roots, and `read` the file system. -/
def getMessageOrEnumInfo (read : List Char → Option (List Char)) (docPath : List Char)
    (importFiles rootFiles : List (List Char)) (target : List Char) : Option SymbolInfo :=
  hoverResolveGo read target (dedupFirst (docPath :: (importFiles ++ rootFiles)))

/-! ### `getContainingEnum` and the enum-value hover branch -/

/-- Unanchored search `trimmedLine.match(/enum\s+(\w+)\s*{/)`. -/
def enumHeaderAt (xs : List Char) : Option (List Char) :=
  match pLit enumKw xs with
  | none => none
  | some _ =>
    let x1 := xs.drop 4
    let s := pMany isSpaceChar x1
    if s = 0 then none
    else
      let x2 := x1.drop s
      let w := pMany isWordChar x2
      if w = 0 then none
      else
        let x3 := x2.drop w
        match x3.drop (pMany isSpaceChar x3) with
        | '{' :: _ => some (x2.take w)
        | _ => none

def enumHeaderName : List Char → Option (List Char)
  | [] => none
  | c :: rest =>
    match enumHeaderAt (c :: rest) with
    | some nm => some nm
    | none => enumHeaderName rest

/-- `getContainingEnum`: replay lines `0 … line`; a line whose trim starts
with `enum ` (re)opens the current enum, a bare `}` while inside closes it. -/
def getContainingEnum (content : List Char) (line : Nat) : Option EnumInfo :=
  let lines := (splitNl content).take (line + 1)
  (lines.foldl
    (fun st l =>
      let t := trimList l
      if ("enum ".toList).isPrefixOf t then
        match enumHeaderName t with
        | some nm => (some (parseEnum nm content), true)
        | none => st
      else if st.2 && t = ['}'] then ((none : Option EnumInfo), false)
      else st)
    ((none : Option EnumInfo), false)).1

/-- The guard `new RegExp(`^\\s*(${targetWord})\\s*=\\s*\\d+`).test(lineText)`
of the enum-value hover branch. -/
def enumValueCtx (word line : List Char) : Bool :=
  let x0 := line.drop (pMany isSpaceChar line)
  match pLit word x0 with
  | none => false
  | some k =>
    let x1 := x0.drop k
    let x2 := x1.drop (pMany isSpaceChar x1)
    match x2 with
    | '=' :: x3 =>
      let x4 := x3.drop (pMany isSpaceChar x3)
      pMany Char.isDigit x4 != 0
    | _ => false

/-- The enum-value branch of `provideHover`: test the line context, locate
the containing enum, and look the hovered word up among its values. -/
def hoverEnumValue (content : List Char) (lineNo : Nat) (word : List Char) :
    Option EnumValueInfo :=
  let lineText := (splitNl content).getD lineNo []
  if enumValueCtx word lineText then
    match getContainingEnum content lineNo with
    | some e => e.values.find? (fun v => v.name == word)
    | none => none
  else none

/-! ### The definition provider (`proto3Definition.ts`)

`findEnumOrMessageDefinition` builds the same candidate list as the hover
side, but reads each file with a bare `fs.readFileSync` — there is no
`try`/`catch` around the per-file body, so a failing read throws out of
the whole query; this is modelled by `Except Unit`.  Per file: the first
line matching `^\s*package\s+([\w.]+)\s*;` gives the package; a dotted
target is package-stripped and resolved by `findNestedDefinition`, an
undotted target by a flat line scan for `\s*(message|enum)\s*TARGET\s*{`. -/

structure DefLocation where
  path : List Char
  line : Nat
  colStart : Nat
  colEnd : Nat
deriving DecidableEq, Repr

/-- `getTargetLocationInline`: the column is recovered with
`line.indexOf(matchedStr) + matchedStr.indexOf(target)` (both always found
here, so the `getD 0` defaults are never taken). -/
def targetLocationInline (path : List Char) (lineIndex : Nat)
    (line target matchedStr : List Char) : DefLocation :=
  let idx := (subIndexOf matchedStr line).getD 0 + (subIndexOf target matchedStr).getD 0
  ⟨path, lineIndex, idx, idx + target.length⟩

/-- `^\s*package\s+([\w.]+)\s*;` on one line. -/
def defnPackageLine (l : List Char) : Option (List Char) :=
  let x0 := l.drop (pMany isSpaceChar l)
  match pLit "package".toList x0 with
  | none => none
  | some _ =>
    let x1 := x0.drop 7
    let s := pMany isSpaceChar x1
    if s = 0 then none
    else
      let x2 := x1.drop s
      let w := pMany (fun c => isWordChar c || c == '.') x2
      if w = 0 then none
      else
        let x3 := x2.drop w
        match x3.drop (pMany isSpaceChar x3) with
        | ';' :: _ => some (x2.take w)
        | _ => none

/-- The package scan of `findEnumOrMessageDefinition` (first matching line,
`''` when none matches). -/
def packageOfDefn (lines : List (List Char)) : List Char :=
  (lines.findSome? defnPackageLine).getD []

/-- The elementwise `packageParts[i] == parts[i]` check (lines 122–129);
a missing `parts[i]` compares unequal. -/
def partsAgree : List (List Char) → List (List Char) → Bool
  | [], _ => true
  | _ :: _, [] => false
  | p :: ps, q :: qs => p == q && partsAgree ps qs

/-- `\s*(message|enum)\s*TARGET\s*{` at one position (note `\s*` — no
mandatory space — between the keyword and the target), returning the match
length. -/
def defnFlatAt (target xs : List Char) : Option Nat :=
  let s := pMany isSpaceChar xs
  let x1 := xs.drop s
  let kwLen? : Option Nat :=
    match pLit msgKw x1 with
    | some _ => some 7
    | none =>
      match pLit enumKw x1 with
      | some _ => some 4
      | none => none
  match kwLen? with
  | none => none
  | some k =>
    let x2 := x1.drop k
    let s2 := pMany isSpaceChar x2
    let x3 := x2.drop s2
    match pLit target x3 with
    | none => none
    | some t =>
      let x4 := x3.drop t
      let s3 := pMany isSpaceChar x4
      match x4.drop s3 with
      | '{' :: _ => some (s + k + s2 + t + s3 + 1)
      | _ => none

/-- Leftmost unanchored match of the flat pattern in a line:
`(position, length)`. -/
def defnFlatSearch (target : List Char) : List Char → Nat → Option (Nat × Nat)
  | xs, i =>
    match defnFlatAt target xs with
    | some len => some (i, len)
    | none =>
      match xs with
      | [] => none
      | _ :: rest => defnFlatSearch target rest (i + 1)

/-- The undotted branch: scan all lines for the flat pattern. -/
def defnFlatLoop (path target : List Char) : List (List Char) → Nat → Option DefLocation
  | [], _ => none
  | l :: ls, i =>
    match defnFlatSearch target l 0 with
    | some mlen =>
      some (targetLocationInline path i l target ((l.drop mlen.1).take mlen.2))
    | none => defnFlatLoop path target ls (i + 1)

/-- `line.replace(/\/\/.*$/, '')`. -/
def removeLineComment (l : List Char) : List Char :=
  match subIndexOf "//".toList l with
  | some i => l.take i
  | none => l

/-- Index of the last `*/` in a line. -/
def lastStarSlashGo : List Char → Nat → Option Nat → Option Nat
  | [], _, best => best
  | c :: cs, i, best =>
    match cs with
    | '/' :: _ =>
      if c = '*' then lastStarSlashGo cs (i + 1) (some i)
      else lastStarSlashGo cs (i + 1) best
    | _ => lastStarSlashGo cs (i + 1) best

/-- `line.replace(/\/\*.*\*\//, '')`: from the first `/*` to the last `*/`
after it (greedy `.*`); no replacement when no such pair exists. -/
def removeBlockComment (l : List Char) : List Char :=
  match subIndexOf "/*".toList l with
  | none => l
  | some i =>
    match lastStarSlashGo (l.drop (i + 2)) 0 none with
    | none => l
    | some j => l.take i ++ l.drop (i + 2 + j + 2)

/-- `findBlockEnd`: from `startLine`, accumulate brace balance over
comment-stripped lines; the first line where it drops to `≤ 0` ends the
block (`lines.length` when the scan exhausts the file). -/
def findBlockEndGo : List (List Char) → Int → Nat → Option Nat
  | [], _, _ => none
  | l :: ls, cnt, i =>
    let clean := removeBlockComment (removeLineComment l)
    let cnt' := cnt + (countChar '{' clean : Int) - (countChar '}' clean : Int)
    if cnt' ≤ 0 then some i else findBlockEndGo ls cnt' (i + 1)

def findBlockEnd (lines : List (List Char)) (startLine : Nat) : Nat :=
  match findBlockEndGo (lines.drop startLine) 0 0 with
  | some k => startLine + k
  | none => lines.length

/-- `\s*(message|enum|service)\s+PART\s*\{` at one position, returning the
match length. -/
def nestedDefnAt (part xs : List Char) : Option Nat :=
  let s := pMany isSpaceChar xs
  let x1 := xs.drop s
  let kwLen? : Option Nat :=
    match pLit msgKw x1 with
    | some _ => some 7
    | none =>
      match pLit enumKw x1 with
      | some _ => some 4
      | none =>
        match pLit "service".toList x1 with
        | some _ => some 7
        | none => none
  match kwLen? with
  | none => none
  | some k =>
    let x2 := x1.drop k
    let s2 := pMany isSpaceChar x2
    if s2 = 0 then none
    else
      let x3 := x2.drop s2
      match pLit part x3 with
      | none => none
      | some t =>
        let x4 := x3.drop t
        let s3 := pMany isSpaceChar x4
        match x4.drop s3 with
        | '{' :: _ => some (s + k + s2 + t + s3 + 1)
        | _ => none

def nestedDefnSearch (part : List Char) : List Char → Nat → Option (Nat × Nat)
  | xs, i =>
    match nestedDefnAt part xs with
    | some len => some (i, len)
    | none =>
      match xs with
      | [] => none
      | _ :: rest => nestedDefnSearch part rest (i + 1)

/-- `findNestedDefinition`: walk lines `i … endLine-1`, skipping `//`
lines; on a line declaring the current part, either report its location
(no parts left) or recurse into the block `(i+1 … min(blockEnd, endLine))`,
resuming after the block on failure.  Fuel-driven; the index strictly
increases at every step and each descent shortens `parts`, so the fuel
chosen in `findNestedDefinition` is always sufficient. -/
def findNestedGo (lines : List (List Char)) (path : List Char) :
    Nat → List (List Char) → Nat → Nat → Option DefLocation
  | 0, _, _, _ => none
  | _ + 1, [], _, _ => none
  | fuel + 1, part :: restParts, i, endLine =>
    if i < endLine then
      let line := lines.getD i []
      if ("//".toList).isPrefixOf (trimList line) then
        findNestedGo lines path fuel (part :: restParts) (i + 1) endLine
      else
        match nestedDefnSearch part line 0 with
        | some mlen =>
          if restParts = [] then
            some (targetLocationInline path i line part ((line.drop mlen.1).take mlen.2))
          else
            let blockEnd := findBlockEnd lines i
            let actualEnd := min blockEnd endLine
            match findNestedGo lines path fuel restParts (i + 1) actualEnd with
            | some loc => some loc
            | none => findNestedGo lines path fuel (part :: restParts) (blockEnd + 1) endLine
        | none => findNestedGo lines path fuel (part :: restParts) (i + 1) endLine
    else none

def findNestedDefinition (lines : List (List Char)) (parts : List (List Char))
    (path : List Char) : Option DefLocation :=
  findNestedGo lines path ((lines.length + 2) * (parts.length + 2)) parts 0 lines.length

/-- Matching a target against one candidate file's content (the per-file
body of `findEnumOrMessageDefinition`, lines 107–156). -/
def defnFileMatch (path content target : List Char) : Option DefLocation :=
  let lines := splitNl content
  let pkg := packageOfDefn lines
  if target.contains '.' then
    let parts := splitChar '.' target
    let parts' :=
      if pkg ≠ [] ∧ (pkg ++ ['.']).isPrefixOf target then
        let pp := splitChar '.' pkg
        if partsAgree pp parts then parts.drop pp.length else parts
      else parts
    findNestedDefinition lines parts' path
  else
    defnFlatLoop path target lines 0

/-- The candidate loop: `fs.readSync` is *not* wrapped in `try`/`catch`
here, so a failing read aborts the whole query (`Except.error`). -/
def defnResolveGo (read : List Char → Option (List Char)) (target : List Char) :
    List (List Char) → Except Unit (Option DefLocation)
  | [] => .ok none
  | f :: fs =>
    match read f with
    | none => .error ()
    | some content =>
      match defnFileMatch f content target with
      | some loc => .ok (some loc)
      | none => defnResolveGo read target fs

/-- `findEnumOrMessageDefinition`, over the same candidate construction as
the hover side. -/
def findEnumOrMessageDefinition (read : List Char → Option (List Char))
    (docPath : List Char) (importFiles rootFiles : List (List Char))
    (target : List Char) : Except Unit (Option DefLocation) :=
  defnResolveGo read target (dedupFirst (docPath :: (importFiles ++ rootFiles)))

/-! ## Lemmas about the candidate-file loops -/

theorem hoverResolveGo_skip_unreadable {read : List Char → Option (List Char)}
    {t f : List Char} {fs : List (List Char)} (h : read f = none) :
    hoverResolveGo read t (f :: fs) = hoverResolveGo read t fs := by
  simp [hoverResolveGo, h]

theorem hoverResolveGo_skip_nomatch {read : List Char → Option (List Char)}
    {t f c : List Char} {fs : List (List Char)} (h : read f = some c)
    (hm : hoverFileMatch c t = none) :
    hoverResolveGo read t (f :: fs) = hoverResolveGo read t fs := by
  simp [hoverResolveGo, h, hm]

theorem hoverResolveGo_head_match {read : List Char → Option (List Char)}
    {t f c : List Char} {fs : List (List Char)} {i : SymbolInfo}
    (h : read f = some c) (hm : hoverFileMatch c t = some i) :
    hoverResolveGo read t (f :: fs) = some i := by
  simp [hoverResolveGo, h, hm]

theorem defnResolveGo_head_error {read : List Char → Option (List Char)}
    {t f : List Char} {fs : List (List Char)} (h : read f = none) :
    defnResolveGo read t (f :: fs) = .error () := by
  simp [defnResolveGo, h]

theorem defnResolveGo_skip_nomatch {read : List Char → Option (List Char)}
    {t f c : List Char} {fs : List (List Char)} (h : read f = some c)
    (hm : defnFileMatch f c t = none) :
    defnResolveGo read t (f :: fs) = defnResolveGo read t fs := by
  simp [defnResolveGo, h, hm]

theorem defnResolveGo_head_match {read : List Char → Option (List Char)}
    {t f c : List Char} {fs : List (List Char)} {loc : DefLocation}
    (h : read f = some c) (hm : defnFileMatch f c t = some loc) :
    defnResolveGo read t (f :: fs) = .ok (some loc) := by
  simp [defnResolveGo, h, hm]

/-- First-conclusive-match over the hover loop: candidates before `f` that
read but do not match are skipped, and `f`'s match is returned. -/
theorem hoverResolveGo_first_match {read : List Char → Option (List Char)}
    {t f cf : List Char} {fs gs : List (List Char)} {i : SymbolInfo}
    (hearlier : ∀ g ∈ fs, ∃ c, read g = some c ∧ hoverFileMatch c t = none)
    (hf : read f = some cf) (hm : hoverFileMatch cf t = some i) :
    hoverResolveGo read t (fs ++ f :: gs) = some i := by
  induction fs with
  | nil => exact hoverResolveGo_head_match hf hm
  | cons g gs' ih =>
    obtain ⟨c, hc, hcm⟩ := hearlier g (by simp)
    rw [List.cons_append, hoverResolveGo_skip_nomatch hc hcm]
    exact ih fun g' hg' => hearlier g' (by simp [hg'])

/-- First-conclusive-match over the definition loop (earlier candidates
must in addition be readable, since this loop has no `try`/`catch`). -/
theorem defnResolveGo_first_match {read : List Char → Option (List Char)}
    {t f cf : List Char} {fs gs : List (List Char)} {loc : DefLocation}
    (hearlier : ∀ g ∈ fs, ∃ c, read g = some c ∧ defnFileMatch g c t = none)
    (hf : read f = some cf) (hm : defnFileMatch f cf t = some loc) :
    defnResolveGo read t (fs ++ f :: gs) = .ok (some loc) := by
  induction fs with
  | nil => exact defnResolveGo_head_match hf hm
  | cons g gs' ih =>
    obtain ⟨c, hc, hcm⟩ := hearlier g (by simp)
    rw [List.cons_append, defnResolveGo_skip_nomatch hc hcm]
    exact ih fun g' hg' => hearlier g' (by simp [hg'])

/-! ## Concrete resolution scenarios -/

/-- A file defining `message Status {}`. -/
def statusContent : List Char := "message Status {}".toList

/-- File system for the resolver-precedence scenario: an empty requesting
document, an imported file and a search-root-only file both defining
`Status`. -/
def readC1 : List Char → Option (List Char) := fun p =>
  if p = "d.proto".toList then some []
  else if p = "i.proto".toList then some statusContent
  else if p = "s.proto".toList then some statusContent
  else none

/-- File system in which `x.proto` cannot be read. -/
def readC5 : List Char → Option (List Char) := fun p =>
  if p = "d.proto".toList then some []
  else if p = "i.proto".toList then some statusContent
  else none

/-- `package a.b; message M { message N {} }` (file F of the qualified
resolution scenario). -/
def nestedContent : List Char := "package a.b;\nmessage M \x7b\n  message N \x7b\x7d\n\x7d".toList

/-- File system with two distinct files carrying `nestedContent`. -/
def readC2 : List Char → Option (List Char) := fun p =>
  if p = "d.proto".toList then some []
  else if p = "f1.proto".toList then some nestedContent
  else if p = "f2.proto".toList then some nestedContent
  else none

/-- The `MessageInfo` parsed for `Status` from `statusContent`. -/
def statusInfo : MessageInfo :=
  ⟨"Status".toList, [], [], [], none, statusContent⟩

/-- The `MessageInfo` produced for the nested `N` (name rewritten to `M.N`
by the traversal; `rawSource` keeps the leading whitespace the opener regex
absorbed). -/
def nestedNInfo : MessageInfo :=
  ⟨"M.N".toList, [], [], [], none, "\n  message N {}".toList⟩

/-- The location of `N` inside `nestedContent` in a file `f`:
line 2, columns 10–11. -/
def nestedNLoc (f : List Char) : DefLocation := ⟨f, 2, 10, 11⟩

/-! ## C1 — resolver candidate priority order -/

/-- C1.  Both resolvers walk the candidate files in the order: requesting
document, files from its `import` statements, `*.proto` files under the
search roots (first-occurrence deduplicated), and the first candidate
producing a conclusive match determines the result; concretely, with
`message Status {}` both in an imported file `i.proto` and in a
scan-only file `s.proto`, resolving `Status` from the importing document
returns `i.proto`'s definition. -/
theorem resolution_priority_order :
    (∀ (read : List Char → Option (List Char)) (doc t : List Char)
        (imps roots fs gs : List (List Char)) (f cf : List Char) (i : SymbolInfo),
        dedupFirst (doc :: (imps ++ roots)) = fs ++ f :: gs →
        (∀ g ∈ fs, ∃ c, read g = some c ∧ hoverFileMatch c t = none) →
        read f = some cf → hoverFileMatch cf t = some i →
        getMessageOrEnumInfo read doc imps roots t = some i) ∧
    (∀ (read : List Char → Option (List Char)) (doc t : List Char)
        (imps roots fs gs : List (List Char)) (f cf : List Char) (loc : DefLocation),
        dedupFirst (doc :: (imps ++ roots)) = fs ++ f :: gs →
        (∀ g ∈ fs, ∃ c, read g = some c ∧ defnFileMatch g c t = none) →
        read f = some cf → defnFileMatch f cf t = some loc →
        findEnumOrMessageDefinition read doc imps roots t = .ok (some loc)) ∧
    findEnumOrMessageDefinition readC1 "d.proto".toList ["i.proto".toList]
        ["s.proto".toList] "Status".toList
      = .ok (some ⟨"i.proto".toList, 0, 8, 14⟩) ∧
    "i.proto".toList ≠ "s.proto".toList := by
  refine ⟨?_, ?_, rfl, by decide⟩
  · intro read doc t imps roots fs gs f cf i hdec he hf hm
    unfold getMessageOrEnumInfo
    rw [hdec]
    exact hoverResolveGo_first_match he hf hm
  · intro read doc t imps roots fs gs f cf loc hdec he hf hm
    unfold findEnumOrMessageDefinition
    rw [hdec]
    exact defnResolveGo_first_match he hf hm

/-- Witness for C1: the hover side on the same `Status` scenario, with
every hypothesis discharged at the concrete input. -/
theorem resolution_priority_order_witness :
    getMessageOrEnumInfo readC1 "d.proto".toList ["i.proto".toList]
      ["s.proto".toList] "Status".toList = some (.msg statusInfo) := by
  refine resolution_priority_order.1 readC1 "d.proto".toList "Status".toList
    ["i.proto".toList] ["s.proto".toList] ["d.proto".toList] ["s.proto".toList]
    "i.proto".toList statusContent (.msg statusInfo) rfl ?_ rfl rfl
  intro g hg
  have hgd : g = "d.proto".toList := by simpa using hg
  exact ⟨[], by rw [hgd]; rfl, rfl⟩

/-! ## C5 — behaviour on an unreadable candidate file -/

/-- C5.  The hover side's candidate loop wraps the read in `try`/`catch`
and skips an unreadable candidate (third conjunct, fully generally), but
the definition side reads with a bare `fs.readFileSync`: on the same
scenario — `x.proto` unreadable, `i.proto` defining `Status` right after
it — `findEnumOrMessageDefinition` aborts with the read error while
`getMessageOrEnumInfo` skips `x.proto` and finds `Status`. -/
theorem unreadable_candidate_behaviour :
    findEnumOrMessageDefinition readC5 "d.proto".toList
        ["x.proto".toList, "i.proto".toList] [] "Status".toList = .error () ∧
    getMessageOrEnumInfo readC5 "d.proto".toList
        ["x.proto".toList, "i.proto".toList] [] "Status".toList
      = some (.msg statusInfo) ∧
    (∀ (read : List Char → Option (List Char)) (t f : List Char)
        (fs : List (List Char)), read f = none →
        hoverResolveGo read t (f :: fs) = hoverResolveGo read t fs) :=
  ⟨rfl, rfl, fun _ _ _ _ h => hoverResolveGo_skip_unreadable h⟩

/-- Witness for C5: the skip lemma applied at the concrete unreadable
candidate. -/
theorem unreadable_candidate_behaviour_witness :
    hoverResolveGo readC5 "Status".toList ["x.proto".toList, "i.proto".toList]
      = hoverResolveGo readC5 "Status".toList ["i.proto".toList] :=
  unreadable_candidate_behaviour.2.2 readC5 "Status".toList "x.proto".toList
    ["i.proto".toList] rfl

/-! ## C2 — qualified-name resolution -/

/-- Counterexample to C2 as stated: the claim says resolving `a.b.M.N`
from *any* document whose candidate set includes F returns N's location
inside F.  With F = `f2.proto` in the candidate set but another file
`f1.proto` with identical content ahead of it, resolution returns the
location in `f1.proto`, not in F. -/
theorem qualified_resolution_counterexample :
    findEnumOrMessageDefinition readC2 "d.proto".toList
        ["f1.proto".toList, "f2.proto".toList] [] "a.b.M.N".toList
      = .ok (some (nestedNLoc "f1.proto".toList)) ∧
    (nestedNLoc "f1.proto".toList).path ≠ "f2.proto".toList :=
  ⟨rfl, by decide⟩

/-- C2 (amended).  For a candidate file F containing
`package a.b; message M { message N {} }`, resolution of `a.b.M.N` — and
likewise of `M.N` — returns N's location inside F (package prefix
stripped, root segment `M` matched, descent by exact segment name)
*provided no earlier candidate yields a match*; the hover-side per-file
match resolves both spellings to the nested `N` info. -/
theorem qualified_resolution_amended :
    (∀ (read : List Char → Option (List Char)) (doc : List Char)
        (imps roots fs gs : List (List Char)) (f : List Char),
        dedupFirst (doc :: (imps ++ roots)) = fs ++ f :: gs →
        read f = some nestedContent →
        ((∀ g ∈ fs, ∃ c, read g = some c ∧ defnFileMatch g c "a.b.M.N".toList = none) →
          findEnumOrMessageDefinition read doc imps roots "a.b.M.N".toList
            = .ok (some (nestedNLoc f))) ∧
        ((∀ g ∈ fs, ∃ c, read g = some c ∧ defnFileMatch g c "M.N".toList = none) →
          findEnumOrMessageDefinition read doc imps roots "M.N".toList
            = .ok (some (nestedNLoc f)))) ∧
    hoverFileMatch nestedContent "a.b.M.N".toList = some (.msg nestedNInfo) ∧
    hoverFileMatch nestedContent "M.N".toList = some (.msg nestedNInfo) := by
  refine ⟨?_, rfl, rfl⟩
  intro read doc imps roots fs gs f hdec hf
  constructor
  · intro he
    unfold findEnumOrMessageDefinition
    rw [hdec]
    exact defnResolveGo_first_match he hf rfl
  · intro he
    unfold findEnumOrMessageDefinition
    rw [hdec]
    exact defnResolveGo_first_match he hf rfl

/-- Witness for C2 (amended): the concrete two-candidate scenario
(document, then F), both target spellings. -/
theorem qualified_resolution_amended_witness :
    findEnumOrMessageDefinition readC2 "d.proto".toList ["f1.proto".toList] []
        "a.b.M.N".toList = .ok (some (nestedNLoc "f1.proto".toList)) ∧
    findEnumOrMessageDefinition readC2 "d.proto".toList ["f1.proto".toList] []
        "M.N".toList = .ok (some (nestedNLoc "f1.proto".toList)) := by
  have h := qualified_resolution_amended.1 readC2 "d.proto".toList
    ["f1.proto".toList] [] ["d.proto".toList] [] "f1.proto".toList rfl rfl
  exact ⟨h.1 (fun g hg => ⟨[], by
      have hgd : g = "d.proto".toList := by simpa using hg
      rw [hgd]; exact rfl, rfl⟩),
    h.2 (fun g hg => ⟨[], by
      have hgd : g = "d.proto".toList := by simpa using hg
      rw [hgd]; exact rfl, rfl⟩)⟩

/-! ## C3 / C10 — fail-soft and totality of the structural parser -/

theorem parseMessageGo_opener_none {fuel : Nat} {name content : List Char}
    (h : findMessageOpener name content = none) :
    parseMessageGo fuel name content = emptyMessage name := by
  cases fuel <;> simp [parseMessageGo, parseMessageCore, h]

theorem parseMessageCore_name (recM : List Char → List Char → MessageInfo)
    (name content : List Char) :
    (parseMessageCore recM name content).name = name := by
  unfold parseMessageCore
  split
  · rfl
  · dsimp only
    split
    · rfl
    · rfl

/-- C3.  When the opener cannot be located, `parseMessage` returns a
record with the requested name and empty fields, nested messages and
nested enums (and no comment, empty `rawSource`), and `parseEnum` returns
a record with empty values; no error is raised — the embedded functions
are total. -/
theorem parser_fail_soft :
    (∀ name content, findMessageOpener name content = none →
        parseMessage name content = emptyMessage name) ∧
    (∀ name content, findEnumSpan name content = none →
        parseEnum name content = emptyEnum name) := by
  constructor
  · intro name content h
    unfold parseMessage
    exact parseMessageGo_opener_none h
  · intro name content h
    simp [parseEnum, h]

/-- Witness for C3: a text containing neither opener. -/
theorem parser_fail_soft_witness :
    findMessageOpener "Foo".toList "hello".toList = none ∧
    parseMessage "Foo".toList "hello".toList = emptyMessage "Foo".toList ∧
    findEnumSpan "Color".toList "hello".toList = none ∧
    parseEnum "Color".toList "hello".toList = emptyEnum "Color".toList :=
  ⟨rfl, parser_fail_soft.1 _ _ rfl, rfl, parser_fail_soft.2 _ _ rfl⟩

/-- C10.  `parseMessage` and `parseEnum` are total Lean functions (they
terminate on every input by construction) and always return an info record
carrying the requested name; in particular they return the empty record on
unbalanced braces, empty text, comment-only text, and a construct that
never closes. -/
theorem parser_totality :
    (∀ name content, (parseMessage name content).name = name ∧
        (parseEnum name content).name = name) ∧
    parseMessage "M".toList "message M \x7b \x7b".toList = emptyMessage "M".toList ∧
    parseMessage "M".toList [] = emptyMessage "M".toList ∧
    parseMessage "M".toList "// hello".toList = emptyMessage "M".toList ∧
    parseEnum "E".toList "enum E \x7b A = 1;".toList = emptyEnum "E".toList ∧
    parseEnum "E".toList [] = emptyEnum "E".toList := by
  refine ⟨?_, rfl, rfl, rfl, rfl, rfl⟩
  intro name content
  constructor
  · unfold parseMessage
    cases content.length <;> exact parseMessageCore_name _ name content
  · unfold parseEnum
    split
    · rfl
    · rfl

/-! ## C6 — a single commented field -/

/-- C6.  `parseMessage("Foo", "message Foo \x7b int32 x = 1; // note\n \x7d")`
yields exactly one field: name `x`, type `int32`, number `1`, comment
`note` (and no label). -/
theorem parse_single_field_with_comment :
    (parseMessage "Foo".toList "message Foo \x7b int32 x = 1; // note\n \x7d".toList).fields
      = [{ name := "x".toList, ftype := "int32".toList, number := 1,
           label := none, comment := some "note".toList }] := rfl

/-! ## C8 — enum value hover on a one-line enum tail -/

/-- Counterexample to C8 as stated: on
`enum Color { RED = 0; // primary\n BLUE = 1; }` the enum-locating regex
requires the closing `}` to be preceded by a newline (`…\n\s*}`), which
this text lacks, so `parseEnum` finds no values, the containing-enum
lookup yields an empty record, and the hover on `BLUE` returns nothing —
not the claimed `{name: "BLUE", number: 1}`. -/
theorem enum_value_hover_counterexample :
    hoverEnumValue "enum Color \x7b RED = 0; // primary\n BLUE = 1; \x7d".toList 1 "BLUE".toList
      = none ∧
    getContainingEnum "enum Color \x7b RED = 0; // primary\n BLUE = 1; \x7d".toList 1
      = some (emptyEnum "Color".toList) :=
  ⟨rfl, rfl⟩

/-- C8 (amended).  With the closing brace on its own line —
`enum Color { RED = 0; // primary\n BLUE = 1;\n }` — hovering `BLUE`
returns the value `BLUE = 1` with no comment, and `RED` keeps its own
`primary` comment. -/
theorem enum_value_hover_amended :
    hoverEnumValue "enum Color \x7b RED = 0; // primary\n BLUE = 1;\n \x7d".toList 1 "BLUE".toList
      = some { name := "BLUE".toList, number := 1, comment := none } ∧
    (parseEnum "Color".toList "enum Color \x7b RED = 0; // primary\n BLUE = 1;\n \x7d".toList).values
      = [{ name := "RED".toList, number := 0, comment := some "primary".toList },
         { name := "BLUE".toList, number := 1, comment := none }] :=
  ⟨rfl, rfl⟩

/-! ## C9 — enum value tags -/

/-- Counterexample to C9 as stated: the enum-value regexes accept only
`\d+` tags, so `NEG = -1;` matches neither version's value pattern and
the value is silently omitted — no `EnumValueInfo` with number `-1` is
ever recorded. -/
theorem enum_negative_tag_counterexample :
    (parseEnum "E".toList "enum E \x7b\n NEG = -1;\n A = 7;\n\x7d".toList).values
      = [{ name := "A".toList, number := 7, comment := none }] ∧
    matchEnumValue000 "NEG = -1;".toList = none ∧
    matchEnumValueSrc "NEG = -1;".toList = none :=
  ⟨rfl, rfl, rfl⟩

/-! ## Character-munch lemmas -/

theorem pMany_cons_neg {p : Char → Bool} {c : Char} (h : p c = false) (xs : List Char) :
    pMany p (c :: xs) = 0 := by
  simp [pMany, h]

theorem pMany_cons_pos {p : Char → Bool} {c : Char} (h : p c = true) (xs : List Char) :
    pMany p (c :: xs) = pMany p xs + 1 := by
  simp [pMany, h]

theorem pMany_append_all {p : Char → Bool} {xs : List Char}
    (h : ∀ c ∈ xs, p c = true) (ys : List Char) :
    pMany p (xs ++ ys) = xs.length + pMany p ys := by
  induction xs with
  | nil => simp
  | cons c cs ih =>
    have hc := h c (List.mem_cons_self c cs)
    have := ih (fun c' hc' => h c' (List.mem_cons_of_mem c hc'))
    simp only [List.cons_append, pMany_cons_pos hc, this, List.length_cons]
    omega

theorem pMany_le_length (p : Char → Bool) (xs : List Char) : pMany p xs ≤ xs.length := by
  induction xs with
  | nil => simp [pMany]
  | cons c cs ih =>
    by_cases h : p c
    · simp [pMany, h]; omega
    · simp [pMany, h]

theorem pMany_append_of_lt {p : Char → Bool} {xs : List Char}
    (h : pMany p xs < xs.length) (ys : List Char) :
    pMany p (xs ++ ys) = pMany p xs := by
  induction xs with
  | nil => simp [pMany] at h
  | cons c cs ih =>
    by_cases hc : p c
    · simp only [pMany_cons_pos hc, List.length_cons] at h
      simp only [List.cons_append, pMany_cons_pos hc, ih (by omega)]
    · simp only [List.cons_append, pMany_cons_neg (Bool.of_not_eq_true hc) _,
        pMany_cons_neg (Bool.of_not_eq_true hc) cs]

theorem pMany_lt_of_exists_neg {p : Char → Bool} {xs : List Char}
    (h : ∃ c ∈ xs, p c = false) : pMany p xs < xs.length := by
  induction xs with
  | nil => simp at h
  | cons c cs ih =>
    by_cases hc : p c
    · obtain ⟨d, hd, hdp⟩ := h
      rcases List.mem_cons.mp hd with rfl | hd'
      · rw [hc] at hdp; cases hdp
      · have := ih ⟨d, hd', hdp⟩
        simp only [pMany_cons_pos hc, List.length_cons]
        omega
    · have := pMany_le_length p cs
      simp only [pMany_cons_neg (Bool.of_not_eq_true hc), List.length_cons]
      omega

theorem pMany_drop_head {p : Char → Bool} {xs rest : List Char} {c : Char}
    (h : xs.drop (pMany p xs) = c :: rest) : p c = false := by
  induction xs generalizing rest with
  | nil => simp at h
  | cons a as ih =>
    by_cases ha : p a
    · rw [pMany_cons_pos ha, List.drop_succ_cons] at h
      exact ih h
    · rw [pMany_cons_neg (Bool.of_not_eq_true ha), List.drop_zero] at h
      cases h
      exact Bool.of_not_eq_true ha

theorem pLit_eq_some {pat xs : List Char} {k : Nat} (h : pLit pat xs = some k) :
    k = pat.length ∧ ∃ rest, xs = pat ++ rest := by
  induction pat generalizing xs k with
  | nil =>
    simp only [pLit, Option.some.injEq] at h
    exact ⟨h.symm ▸ rfl, xs, rfl⟩
  | cons p ps ih =>
    match xs with
    | [] => simp [pLit] at h
    | x :: xs' =>
      simp only [pLit] at h
      by_cases hx : x = p
      · rw [if_pos hx] at h
        match hk : pLit ps xs' with
        | none => rw [hk] at h; simp at h
        | some k' =>
          rw [hk] at h
          simp at h
          obtain ⟨hkl, rest, hrest⟩ := ih hk
          subst hx
          exact ⟨by simp [← h, hkl], rest, by simp [hrest]⟩
      · rw [if_neg hx] at h; cases h

theorem pLit_self_append (pat rest : List Char) : pLit pat (pat ++ rest) = some pat.length := by
  induction pat with
  | nil => rfl
  | cons p ps ih => simp [pLit, ih]


theorem space_not_word {c : Char} (h : isSpaceChar c = true) : isWordChar c = false := by
  simp only [isSpaceChar, Bool.or_eq_true, beq_iff_eq] at h
  rcases h with ((((h | h) | h) | h) | h) | h <;> subst h <;> decide

theorem wordChar_not_space {c : Char} (h : isWordChar c = true) : isSpaceChar c = false := by
  cases hs : isSpaceChar c
  · rfl
  · rw [space_not_word hs] at h; cases h

theorem space_not_digit {c : Char} (h : isSpaceChar c = true) : c.isDigit = false := by
  simp only [isSpaceChar, Bool.or_eq_true, beq_iff_eq] at h
  rcases h with ((((h | h) | h) | h) | h) | h <;> subst h <;> decide

theorem digit_not_space {c : Char} (h : c.isDigit = true) : isSpaceChar c = false := by
  cases hs : isSpaceChar c
  · rfl
  · rw [space_not_digit hs] at h; cases h

theorem digit_word {c : Char} (h : c.isDigit = true) : isWordChar c = true := by
  simp [isWordChar, Char.isAlphanum, h]

theorem wordChar_ne_of_neg {c d : Char} (h : isWordChar c = true)
    (hd : isWordChar d = false) : c ≠ d := by
  intro he; subst he; rw [h] at hd; cases hd

/-- A list with a non-space head and non-space last element is its own
trim. -/
theorem trimList_eq_self_of_sandwich {c d : Char} {mid : List Char}
    (hc : isSpaceChar c = false) (hd : isSpaceChar d = false) :
    trimList (c :: (mid ++ [d])) = c :: (mid ++ [d]) := by
  unfold trimList
  rw [List.dropWhile_cons]
  simp only [hc, Bool.false_eq_true, if_false]
  have hrev : (c :: (mid ++ [d])).reverse = d :: (mid.reverse ++ [c]) := by simp
  rw [hrev, List.dropWhile_cons]
  simp only [hd, Bool.false_eq_true, if_false]
  rw [← hrev, List.reverse_reverse]

/-! ## Generic facts about the enum-body line walk -/

/-- A self-trimmed, non-blank, non-comment, non-brace line matched as a
value (with no inline comment) appends exactly that value and clears the
pending comments. -/
theorem enumLineStep_value
    {matcher : List Char → Option (List Char × List Char × Option (List Char))}
    {line nm digits : List Char} (acc : EnumPassAcc)
    (h0 : trimList line = line)
    (h1 : ((['/', '/'] : List Char).isPrefixOf line) = false)
    (h2 : line ≠ []) (h3 : line ≠ ['{']) (h4 : line ≠ ['}'])
    (h5 : matcher line = some (nm, digits, none)) :
    enumLineStep matcher acc line
      = ⟨acc.values ++ [⟨nm, digitsVal digits, commentsJoin acc.pending none⟩], []⟩ := by
  have h1' : ¬((['/', '/'] : List Char) <+: line) := by
    rw [← List.isPrefixOf_iff_prefix]; simp [h1]
  unfold enumLineStep
  rw [h0]
  simp [h1', h2, h3, h4, h5]

/-- A self-trimmed, non-blank, non-comment, non-brace line the matcher
rejects is dropped: no value is recorded and the pending comments are
cleared (the walk proceeds with the remaining lines). -/
theorem enumLineStep_skip
    {matcher : List Char → Option (List Char × List Char × Option (List Char))}
    {line : List Char} (acc : EnumPassAcc)
    (h0 : trimList line = line)
    (h1 : ((['/', '/'] : List Char).isPrefixOf line) = false)
    (h2 : line ≠ []) (h3 : line ≠ ['{']) (h4 : line ≠ ['}'])
    (h5 : matcher line = none) :
    enumLineStep matcher acc line = ⟨acc.values, []⟩ := by
  have h1' : ¬((['/', '/'] : List Char) <+: line) := by
    rw [← List.isPrefixOf_iff_prefix]; simp [h1]
  unfold enumLineStep
  rw [h0]
  simp [h1', h2, h3, h4, h5]

/-! ## Failure analysis of the field-line regex on a non-numeric tag -/

/-- The `map<…>` alternative cannot match without a `<`. -/
theorem mapBranch_none_of_no_lt {xs : List Char} (h : '<' ∉ xs) : mapBranch xs = none := by
  unfold mapBranch
  cases hl : pLit "map".toList xs with
  | none => rfl
  | some k =>
    obtain ⟨-, rest, rfl⟩ := pLit_eq_some hl
    have hdrop : (("map".toList ++ rest).drop 3) = rest := List.drop_left "map".toList rest
    simp only [hdrop]
    cases hx : rest.drop (pMany isSpaceChar rest) with
    | nil => rfl
    | cons c x3 =>
      have hc : c ≠ '<' := by
        intro hceq
        subst hceq
        apply h
        apply List.mem_append_right
        apply List.mem_of_mem_drop (n := pMany isSpaceChar rest)
        rw [hx]
        exact List.mem_cons_self _ _
      split
      · rename_i x3' heq
        injection heq with h1 _
        exact absurd h1 hc
      · rfl

/-- The nested-declaration opener pattern cannot match without a `{`. -/
theorem matchNestedOpener_none_of_no_brace {kw t : List Char} (h : '{' ∉ t) :
    matchNestedOpener kw t = none := by
  unfold matchNestedOpener
  cases hl : pLit kw t with
  | none => rfl
  | some k =>
    obtain ⟨hk, rest, rfl⟩ := pLit_eq_some hl
    subst hk
    simp only [List.drop_left]
    by_cases hs : pMany isSpaceChar rest = 0
    · simp only [hs, if_pos rfl, if_true, eq_self_iff_true]
    · simp only [if_neg hs]
      by_cases hw : pMany isWordChar (rest.drop (pMany isSpaceChar rest)) = 0
      · simp only [hw, if_pos rfl, if_true, eq_self_iff_true]
      · simp only [if_neg hw]
        cases hx : ((rest.drop (pMany isSpaceChar rest)).drop
            (pMany isWordChar (rest.drop (pMany isSpaceChar rest)))).drop
            (pMany isSpaceChar ((rest.drop (pMany isSpaceChar rest)).drop
              (pMany isWordChar (rest.drop (pMany isSpaceChar rest))))) with
        | nil => rfl
        | cons c x4 =>
          have hc : c ≠ '{' := by
            intro hceq
            subst hceq
            apply h
            apply List.mem_append_right
            apply List.mem_of_mem_drop (n := pMany isSpaceChar rest)
            apply List.mem_of_mem_drop
              (n := pMany isWordChar (rest.drop (pMany isSpaceChar rest)))
            apply List.mem_of_mem_drop
            rw [hx]
            exact List.mem_cons_self _ _
          split
          · rename_i x4' heq
            injection heq with h1 _
            exact absurd h1 hc
          · rfl

/-- `(?:\.\w+)*` consumes nothing when the next character is not a dot. -/
theorem pDotUnitsGo_nondot {c : Char} (hc : c ≠ '.') (rest : List Char) (fuel : Nat) :
    pDotUnitsGo fuel (c :: rest) = 0 := by
  cases fuel with
  | zero => rfl
  | succ f =>
    unfold pDotUnitsGo
    split
    · rename_i rest' heq
      injection heq with h1 _
      exact absurd h1 hc
    · rfl

/-- `\w+(?:\.\w+)*` on a word run followed by a space consumes exactly the
word run. -/
theorem pDottedWord_word_space {w : List Char} (hw : ∀ c ∈ w, isWordChar c = true)
    (hne : w ≠ []) (rest : List Char) :
    pDottedWord (w ++ ' ' :: rest) = w.length := by
  unfold pDottedWord
  have h1 : pMany isWordChar (w ++ ' ' :: rest) = w.length := by
    rw [pMany_append_all hw, pMany_cons_neg (by decide : isWordChar ' ' = false), Nat.add_zero]
  simp only [h1]
  rw [if_neg (by intro h0; exact hne (List.length_eq_zero.mp h0)), List.drop_left,
    pDotUnitsGo_nondot (by decide) rest _, Nat.add_zero]

/-- The bracketed-options group fails on a head character that is neither
whitespace nor `[`. -/
theorem tryOptions_none_of_head {c : Char} (hcs : isSpaceChar c = false)
    (hcb : c ≠ '[') (l : List Char) : tryOptions (c :: l) = none := by
  unfold tryOptions
  rw [pMany_cons_neg hcs, List.drop_zero]
  try dsimp only
  split
  · rename_i x2 heq
    injection heq with h1 _
    exact absurd h1 hcb
  · rfl

/-- After the type, a literal `=` where the field name should be fails the
tail (the `(\w+)` capture needs at least one word character). -/
theorem fieldTail_fail_eq (lbl : Option (List Char)) (W : List Char) (l' : List Char) :
    fieldTail lbl W (' ' :: '=' :: l') = none := by
  unfold fieldTail
  have h1 : pMany isSpaceChar (' ' :: '=' :: l') = 1 := by
    rw [pMany_cons_pos (by decide : isSpaceChar ' ' = true),
      pMany_cons_neg (by decide : isSpaceChar '=' = false)]
  rw [h1, if_neg (by decide : ¬(1 = 0)), List.drop_succ_cons, List.drop_zero]
  try dsimp only
  rw [pMany_cons_neg (by decide : isWordChar '=' = false), if_pos rfl]

/-- The tail `\s+(\w+)\s*=\s*(\d+)…;` fails when the tag token is a word
run containing a non-digit: the `\d+` capture stops at the first non-digit
and neither the options group, nor `\s*;`, can consume the leftover word
character. -/
theorem fieldTail_fail_digits {nm tag : List Char} (lbl : Option (List Char)) (W : List Char)
    (hnm : nm ≠ []) (hnall : ∀ c ∈ nm, isWordChar c = true)
    (htagne : tag ≠ []) (htagw : ∀ c ∈ tag, isWordChar c = true)
    (htagnd : ∃ c ∈ tag, c.isDigit = false) :
    fieldTail lbl W (' ' :: (nm ++ ' ' :: '=' :: ' ' :: (tag ++ [';']))) = none := by
  obtain ⟨n0, nm', rfl⟩ := List.exists_cons_of_ne_nil hnm
  obtain ⟨t0, tag', rfl⟩ := List.exists_cons_of_ne_nil htagne
  have hn0 := hnall n0 (by simp)
  have ht0 := htagw t0 (by simp)
  have h1 : pMany isSpaceChar
      (' ' :: ((n0 :: nm') ++ ' ' :: '=' :: ' ' :: ((t0 :: tag') ++ [';']))) = 1 := by
    rw [pMany_cons_pos (by decide : isSpaceChar ' ' = true), List.cons_append,
      pMany_cons_neg (wordChar_not_space hn0)]
  have h2 : pMany isWordChar ((n0 :: nm') ++ ' ' :: '=' :: ' ' :: ((t0 :: tag') ++ [';']))
      = (n0 :: nm').length := by
    rw [pMany_append_all hnall, pMany_cons_neg (by decide : isWordChar ' ' = false), Nat.add_zero]
  have h3 : pMany isSpaceChar (' ' :: '=' :: ' ' :: ((t0 :: tag') ++ [';'])) = 1 := by
    rw [pMany_cons_pos (by decide : isSpaceChar ' ' = true),
      pMany_cons_neg (by decide : isSpaceChar '=' = false)]
  have h4 : pMany isSpaceChar (' ' :: ((t0 :: tag') ++ [';'])) = 1 := by
    rw [pMany_cons_pos (by decide : isSpaceChar ' ' = true), List.cons_append,
      pMany_cons_neg (wordChar_not_space ht0)]
  have hlt : pMany Char.isDigit (t0 :: tag') < (t0 :: tag').length :=
    pMany_lt_of_exists_neg htagnd
  have h5 : pMany Char.isDigit ((t0 :: tag') ++ [';']) = pMany Char.isDigit (t0 :: tag') :=
    pMany_append_of_lt hlt [';']
  unfold fieldTail
  rw [h1, if_neg (by decide : ¬(1 = 0)), List.drop_succ_cons, List.drop_zero]
  try dsimp only
  rw [h2, if_neg (by simp), List.take_left, List.drop_left, h3, List.drop_succ_cons,
    List.drop_zero]
  simp only [h4, List.drop_succ_cons, List.drop_zero, h5]
  by_cases hd0 : pMany Char.isDigit (t0 :: tag') = 0
  · rw [hd0, if_pos rfl]
  · rw [if_neg hd0]
    have hdle : pMany Char.isDigit (t0 :: tag') ≤ (t0 :: tag').length := le_of_lt hlt
    have hx6 : ((t0 :: tag') ++ [';']).drop (pMany Char.isDigit (t0 :: tag'))
        = (t0 :: tag').drop (pMany Char.isDigit (t0 :: tag')) ++ [';'] :=
      List.drop_append_of_le_length hdle
    have hdropne : (t0 :: tag').drop (pMany Char.isDigit (t0 :: tag')) ≠ [] := by
      intro hnil
      rw [List.drop_eq_nil_iff] at hnil
      omega
    obtain ⟨c, crest, hcr⟩ := List.exists_cons_of_ne_nil hdropne
    have hcw : isWordChar c = true :=
      htagw c (List.mem_of_mem_drop (hcr ▸ List.mem_cons_self c crest))
    rw [hx6, hcr, List.cons_append]
    rw [tryOptions_none_of_head (wordChar_not_space hcw)
      (wordChar_ne_of_neg hcw (by decide)) _]
    rw [pMany_cons_neg (wordChar_not_space hcw), List.drop_zero]
    split
    · rename_i rest' heq
      injection heq with hcsemi _
      exact absurd hcsemi (wordChar_ne_of_neg hcw (by decide))
    · rfl

/-- No occurrence of a non-word character other than the literal
separators in a line of the shape `TYPE NAME = TAG;`. -/
theorem char_not_in_field_shape {d : Char} (hd : isWordChar d = false) (hd1 : d ≠ ' ')
    (hd2 : d ≠ '=') (hd3 : d ≠ ';') {ty nm tag : List Char}
    (htyw : ∀ c ∈ ty, isWordChar c = true) (hnall : ∀ c ∈ nm, isWordChar c = true)
    (htagw : ∀ c ∈ tag, isWordChar c = true) :
    d ∉ ty ++ ' ' :: (nm ++ ' ' :: '=' :: ' ' :: (tag ++ [';'])) := by
  intro hmem
  rcases List.mem_append.mp hmem with hm | hm
  · rw [htyw d hm] at hd; cases hd
  · rcases List.mem_cons.mp hm with he | hm2
    · exact hd1 he
    · rcases List.mem_append.mp hm2 with hm3 | hm4
      · rw [hnall d hm3] at hd; cases hd
      · rcases List.mem_cons.mp hm4 with he | hm5
        · exact hd1 he
        · rcases List.mem_cons.mp hm5 with he | hm6
          · exact hd2 he
          · rcases List.mem_cons.mp hm6 with he | hm7
            · exact hd1 he
            · rcases List.mem_append.mp hm7 with hm8 | hm9
              · rw [htagw d hm8] at hd; cases hd
              · rcases List.mem_cons.mp hm9 with he | hm10
                · exact hd3 he
                · cases hm10

theorem fieldCore_fail {nm tag : List Char}
    (hnm : nm ≠ []) (hnall : ∀ c ∈ nm, isWordChar c = true)
    (htagne : tag ≠ []) (htagw : ∀ c ∈ tag, isWordChar c = true)
    (htagnd : ∃ c ∈ tag, c.isDigit = false)
    (lbl : Option (List Char)) (mid : List Char) (hmid : ∀ c ∈ mid, isWordChar c = true) :
    fieldCore lbl (mid ++ ' ' :: (nm ++ ' ' :: '=' :: ' ' :: (tag ++ [';']))) = none := by
  have hnolt : '<' ∉ mid ++ ' ' :: (nm ++ ' ' :: '=' :: ' ' :: (tag ++ [';'])) :=
    char_not_in_field_shape (by decide) (by decide) (by decide) (by decide) hmid hnall htagw
  obtain ⟨n0, nm', hnmeq⟩ := List.exists_cons_of_ne_nil hnm
  cases mid with
  | nil =>
    have hn0 : isWordChar n0 = true := hnall n0 (by rw [hnmeq]; simp)
    have hs1 : pMany isSpaceChar ([] ++ ' ' :: (nm ++ ' ' :: '=' :: ' ' :: (tag ++ [';']))) = 1 := by
      rw [List.nil_append, pMany_cons_pos (by decide : isSpaceChar ' ' = true), hnmeq,
        List.cons_append, pMany_cons_neg (wordChar_not_space hn0)]
    unfold fieldCore
    rw [hs1, List.nil_append, List.drop_succ_cons, List.drop_zero]
    have hnoltR : '<' ∉ nm ++ ' ' :: '=' :: ' ' :: (tag ++ [';']) := by
      intro hmem
      exact hnolt (by rw [List.nil_append]; exact List.mem_cons_of_mem _ hmem)
    try dsimp only
    rw [mapBranch_none_of_no_lt hnoltR]
    try dsimp only
    rw [pDottedWord_word_space hnall hnm _,
      if_neg (fun h0 => hnm (List.length_eq_zero.mp h0)), List.take_left, List.drop_left]
    exact fieldTail_fail_eq lbl nm (' ' :: (tag ++ [';']))
  | cons m0 mid' =>
    have hm0 : isWordChar m0 = true := hmid m0 (by simp)
    have hs0 : pMany isSpaceChar ((m0 :: mid') ++ ' ' :: (nm ++ ' ' :: '=' :: ' ' :: (tag ++ [';']))) = 0 := by
      rw [List.cons_append, pMany_cons_neg (wordChar_not_space hm0)]
    unfold fieldCore
    rw [hs0, List.drop_zero]
    try dsimp only
    rw [mapBranch_none_of_no_lt hnolt]
    try dsimp only
    rw [pDottedWord_word_space hmid (by simp) _,
      if_neg (by simp), List.take_left, List.drop_left]
    exact fieldTail_fail_digits lbl (m0 :: mid') hnm hnall htagne htagw htagnd

theorem pickLabel_some {xs kw rest : List Char} (h : pickLabel xs = some (kw, rest)) :
    kw.isPrefixOf xs = true ∧ rest = xs.drop 8 ∧ kw.length = 8 ∧
      ∀ c ∈ kw, isWordChar c = true := by
  unfold pickLabel at h
  by_cases h1 : ("optional".toList).isPrefixOf xs = true
  · rw [if_pos h1] at h
    simp only [Option.some.injEq, Prod.mk.injEq] at h
    obtain ⟨rfl, rfl⟩ := h
    exact ⟨h1, rfl, by decide, by decide⟩
  · rw [if_neg h1] at h
    by_cases h2 : ("required".toList).isPrefixOf xs = true
    · rw [if_pos h2] at h
      simp only [Option.some.injEq, Prod.mk.injEq] at h
      obtain ⟨rfl, rfl⟩ := h
      exact ⟨h2, rfl, by decide, by decide⟩
    · rw [if_neg h2] at h
      by_cases h3 : ("repeated".toList).isPrefixOf xs = true
      · rw [if_pos h3] at h
        simp only [Option.some.injEq, Prod.mk.injEq] at h
        obtain ⟨rfl, rfl⟩ := h
        exact ⟨h3, rfl, by decide, by decide⟩
      · rw [if_neg h3] at h
        cases h

theorem matchFieldLine_fail {ty nm tag : List Char}
    (hty : ty ≠ []) (htyw : ∀ c ∈ ty, isWordChar c = true)
    (hnm : nm ≠ []) (hnall : ∀ c ∈ nm, isWordChar c = true)
    (htagne : tag ≠ []) (htagw : ∀ c ∈ tag, isWordChar c = true)
    (htagnd : ∃ c ∈ tag, c.isDigit = false) :
    matchFieldLine (ty ++ ' ' :: (nm ++ ' ' :: '=' :: ' ' :: (tag ++ [';']))) = none := by
  obtain ⟨t0, ty', htyeq0⟩ := List.exists_cons_of_ne_nil hty
  have ht0 : isWordChar t0 = true := htyw t0 (by rw [htyeq0]; simp)
  have hs0 : pMany isSpaceChar (ty ++ ' ' :: (nm ++ ' ' :: '=' :: ' ' :: (tag ++ [';']))) = 0 := by
    rw [htyeq0, List.cons_append, pMany_cons_neg (wordChar_not_space ht0)]
  unfold matchFieldLine
  rw [hs0, List.drop_zero]
  try dsimp only
  cases hpl : pickLabel (ty ++ ' ' :: (nm ++ ' ' :: '=' :: ' ' :: (tag ++ [';']))) with
  | none =>
    try dsimp only
    exact fieldCore_fail hnm hnall htagne htagw htagnd none ty htyw
  | some kwrest =>
    obtain ⟨kw, rest⟩ := kwrest
    obtain ⟨hpre, hrest, hklen, hkw⟩ := pickLabel_some hpl
    have hkpre : kw <+: ty ++ ' ' :: (nm ++ ' ' :: '=' :: ' ' :: (tag ++ [';'])) :=
      List.isPrefixOf_iff_prefix.mp hpre
    have htypre : ty <+: ty ++ ' ' :: (nm ++ ' ' :: '=' :: ' ' :: (tag ++ [';'])) :=
      List.prefix_append ty _
    have h8 : 8 ≤ ty.length := by
      by_contra hlt
      push_neg at hlt
      have h2 : ty <+: kw := List.prefix_of_prefix_length_le htypre hkpre (by omega)
      obtain ⟨krest, hk⟩ := h2
      have hkne : krest ≠ [] := by
        intro h0
        subst h0
        rw [List.append_nil] at hk
        rw [← hk] at hklen
        omega
      obtain ⟨k0, krest', rfl⟩ := List.exists_cons_of_ne_nil hkne
      obtain ⟨suf, hsuf⟩ := hkpre
      rw [← hk, List.append_assoc] at hsuf
      have h3 := List.append_cancel_left hsuf
      rw [List.cons_append] at h3
      have hk0w : isWordChar k0 = true := by
        apply hkw
        rw [← hk]
        exact List.mem_append_right _ (List.mem_cons_self _ _)
      injection h3 with h4 _
      rw [h4] at hk0w
      exact absurd hk0w (by decide)
    have hkty : kw <+: ty := List.prefix_of_prefix_length_le hkpre htypre (by omega)
    obtain ⟨tyrest, htyeq⟩ := hkty
    have htyrw : ∀ c ∈ tyrest, isWordChar c = true := fun c hc =>
      htyw c (by rw [← htyeq]; exact List.mem_append_right _ hc)
    have hrest2 : rest = tyrest ++ ' ' :: (nm ++ ' ' :: '=' :: ' ' :: (tag ++ [';'])) := by
      rw [hrest, ← htyeq, List.append_assoc, ← hklen, List.drop_left]
    try dsimp only
    rw [hrest2, fieldCore_fail hnm hnall htagne htagw htagnd (some kw) tyrest htyrw]
    try dsimp only
    exact fieldCore_fail hnm hnall htagne htagw htagnd none ty htyw

/-- A `Bool`-equality between a non-word and a word character is `false`. -/
theorem beq_eq_false_of_word {d c : Char} (hd : isWordChar d = false)
    (h : isWordChar c = true) : (d == c) = false := by
  cases hb : d == c with
  | false => rfl
  | true =>
    have hs : d = c := by simpa using hb
    subst hs
    rw [h] at hd
    cases hd

theorem countChar_eq_zero {c : Char} {xs : List Char} (h : c ∉ xs) : countChar c xs = 0 := by
  rw [countChar, List.countP_eq_zero]
  intro a ha
  simp only [decide_eq_true_eq]
  intro he
  exact h (he ▸ ha)

/-- A self-trimmed, non-blank, non-comment, non-brace, brace-free line at
depth `0` that is neither a nested opener nor a field line only clears the
pending comments; fields, nested names and depth are untouched. -/
theorem msgLineStep_skip {line : List Char} (acc : MsgPassAcc) (hd : acc.depth = 0)
    (h0 : trimList line = line)
    (h1 : ((['/', '/'] : List Char).isPrefixOf line) = false)
    (h2 : line ≠ []) (h3 : line ≠ ['{']) (h4 : line ≠ ['}'])
    (h5 : matchNestedOpener msgKw line = none)
    (h6 : matchNestedOpener enumKw line = none)
    (h7 : matchFieldLine line = none)
    (h8 : countChar '{' line = 0) (h9 : countChar '}' line = 0) :
    msgLineStep acc line = { acc with pending := [] } := by
  have h1' : ¬((['/', '/'] : List Char) <+: line) := by
    rw [← List.isPrefixOf_iff_prefix]; simp [h1]
  unfold msgLineStep
  rw [h0]
  simp [h1', h2, h3, h4, h5, h6, h7, h8, h9, hd]

/-- C4.  A field line whose tag token is a word run that is not a decimal
number — `string x = abc;` for instance — never matches the field pattern;
at depth `0` the walk records nothing for it (only the pending comments
are cleared), and the fold simply continues with the remaining lines, so
every subsequent valid field line is still parsed.  The concrete conjunct
shows `parseMessage` on a message containing `string x = abc;` followed by
`int32 y = 2;` yielding exactly the `y` field. -/
theorem malformed_tag_tolerance :
    ∀ (ty nm tag : List Char),
      ty ≠ [] → (∀ c ∈ ty, isWordChar c = true) →
      nm ≠ [] → (∀ c ∈ nm, isWordChar c = true) →
      tag ≠ [] → (∀ c ∈ tag, isWordChar c = true) → (∃ c ∈ tag, c.isDigit = false) →
      matchFieldLine (ty ++ ' ' :: (nm ++ ' ' :: '=' :: ' ' :: (tag ++ [';']))) = none ∧
      (∀ acc : MsgPassAcc, acc.depth = 0 →
        msgLineStep acc (ty ++ ' ' :: (nm ++ ' ' :: '=' :: ' ' :: (tag ++ [';'])))
          = { acc with pending := [] }) ∧
      (∀ (acc : MsgPassAcc) (ls : List (List Char)), acc.depth = 0 →
        ((ty ++ ' ' :: (nm ++ ' ' :: '=' :: ' ' :: (tag ++ [';']))) :: ls).foldl
            msgLineStep acc
          = ls.foldl msgLineStep { acc with pending := [] }) ∧
      (parseMessage "M".toList
          "message M \x7b string x = abc;\n int32 y = 2;\n \x7d".toList).fields
        = [{ name := "y".toList, ftype := "int32".toList, number := 2,
             label := none, comment := none }] := by
  intro ty nm tag hty htyw hnm hnall htagne htagw htagnd
  have hfail := matchFieldLine_fail hty htyw hnm hnall htagne htagw htagnd
  obtain ⟨t0, ty', htyeq0⟩ := List.exists_cons_of_ne_nil hty
  have ht0 : isWordChar t0 = true := htyw t0 (by rw [htyeq0]; simp)
  have hshape : ty ++ ' ' :: (nm ++ ' ' :: '=' :: ' ' :: (tag ++ [';']))
      = t0 :: ((ty' ++ ' ' :: nm ++ ' ' :: '=' :: ' ' :: tag) ++ [';']) := by
    rw [htyeq0]; simp
  have htrim : trimList (ty ++ ' ' :: (nm ++ ' ' :: '=' :: ' ' :: (tag ++ [';'])))
      = ty ++ ' ' :: (nm ++ ' ' :: '=' :: ' ' :: (tag ++ [';'])) := by
    rw [hshape]
    exact trimList_eq_self_of_sandwich (wordChar_not_space ht0) (by decide)
  have hpre : ((['/', '/'] : List Char).isPrefixOf
      (ty ++ ' ' :: (nm ++ ' ' :: '=' :: ' ' :: (tag ++ [';'])))) = false := by
    rw [hshape]
    simp [List.isPrefixOf, beq_eq_false_of_word (d := '/') (by decide) ht0]
  have hne : ty ++ ' ' :: (nm ++ ' ' :: '=' :: ' ' :: (tag ++ [';'])) ≠ [] := by
    rw [hshape]; simp
  have hbr1 : ty ++ ' ' :: (nm ++ ' ' :: '=' :: ' ' :: (tag ++ [';'])) ≠ ['{'] := by
    rw [hshape]; simp
  have hbr2 : ty ++ ' ' :: (nm ++ ' ' :: '=' :: ' ' :: (tag ++ [';'])) ≠ ['}'] := by
    rw [hshape]; simp
  have hnoOpen : '{' ∉ ty ++ ' ' :: (nm ++ ' ' :: '=' :: ' ' :: (tag ++ [';'])) :=
    char_not_in_field_shape (by decide) (by decide) (by decide) (by decide) htyw hnall htagw
  have hnoClose : '}' ∉ ty ++ ' ' :: (nm ++ ' ' :: '=' :: ' ' :: (tag ++ [';'])) :=
    char_not_in_field_shape (by decide) (by decide) (by decide) (by decide) htyw hnall htagw
  have hstep : ∀ acc : MsgPassAcc, acc.depth = 0 →
      msgLineStep acc (ty ++ ' ' :: (nm ++ ' ' :: '=' :: ' ' :: (tag ++ [';'])))
        = { acc with pending := [] } := fun acc hdep =>
    msgLineStep_skip acc hdep htrim hpre hne hbr1 hbr2
      (matchNestedOpener_none_of_no_brace hnoOpen)
      (matchNestedOpener_none_of_no_brace hnoOpen) hfail
      (countChar_eq_zero hnoOpen) (countChar_eq_zero hnoClose)
  refine ⟨hfail, hstep, fun acc ls hdep => ?_, rfl⟩
  rw [List.foldl_cons, hstep acc hdep]

/-- Witness for C4 at the claim's own example line `string x = abc;`. -/
theorem malformed_tag_tolerance_witness :
    matchFieldLine "string x = abc;".toList = none ∧
    msgLineStep msgPassInit "string x = abc;".toList = msgPassInit := by
  have h := malformed_tag_tolerance "string".toList "x".toList "abc".toList
    (by decide) (by decide) (by decide) (by decide) (by decide) (by decide)
    ⟨'a', by decide, by decide⟩
  exact ⟨h.1, h.2.1 msgPassInit rfl⟩

/-! ## Symbolic runs of the enum-value regex -/

/-- The enum-value regex accepts `NAME = digits;` for any word-character
name and non-empty digit run, capturing exactly the name and the digits
(and no inline comment). -/
theorem matchEnumValue000_pos {nm ds : List Char} (hnm : nm ≠ [])
    (hall : ∀ c ∈ nm, isWordChar c = true) (hds : ds ≠ [])
    (hdall : ∀ c ∈ ds, c.isDigit = true) :
    matchEnumValue000 (nm ++ ' ' :: '=' :: ' ' :: (ds ++ [';'])) = some (nm, ds, none) := by
  obtain ⟨c0, nm', rfl⟩ := List.exists_cons_of_ne_nil hnm
  obtain ⟨d0, ds', rfl⟩ := List.exists_cons_of_ne_nil hds
  have hc0 : isWordChar c0 = true := hall c0 (by simp)
  have hd0 : (d0 : Char).isDigit = true := hdall d0 (by simp)
  have h1 : pMany isSpaceChar ((c0 :: nm') ++ ' ' :: '=' :: ' ' :: ((d0 :: ds') ++ [';'])) = 0 :=
    pMany_cons_neg (wordChar_not_space hc0) _
  have h2 : pMany isWordChar ((c0 :: nm') ++ ' ' :: '=' :: ' ' :: ((d0 :: ds') ++ [';']))
      = (c0 :: nm').length := by
    rw [pMany_append_all hall, pMany_cons_neg (by decide : isWordChar ' ' = false), Nat.add_zero]
  have h3 : pMany isSpaceChar (' ' :: '=' :: ' ' :: ((d0 :: ds') ++ [';'])) = 1 := by
    rw [pMany_cons_pos (by decide : isSpaceChar ' ' = true),
      pMany_cons_neg (by decide : isSpaceChar '=' = false)]
  have h4 : pMany isSpaceChar (' ' :: ((d0 :: ds') ++ [';'])) = 1 := by
    rw [pMany_cons_pos (by decide : isSpaceChar ' ' = true),
      List.cons_append, pMany_cons_neg (digit_not_space hd0)]
  have h5 : pMany Char.isDigit ((d0 :: ds') ++ [';']) = (d0 :: ds').length := by
    rw [pMany_append_all hdall, pMany_cons_neg (by decide : (';' : Char).isDigit = false),
      Nat.add_zero]
  have hcond1 : ((c0 :: nm').length = 0) = False := by simp
  have hcond2 : ((d0 :: ds').length = 0) = False := by simp
  have hsemi : pMany isSpaceChar [';'] = 0 :=
    pMany_cons_neg (by decide : isSpaceChar ';' = false) _
  unfold matchEnumValue000
  simp only [h1, List.drop_zero, h2, hcond1, if_false, List.take_left, List.drop_left,
    h3, List.drop_succ_cons, h4, h5, hcond2, hsemi, inlineOrEnd, Option.map_some, if_true]
  rfl

/-- The enum-value regex rejects `NAME = -digits;`: the `-` sign stops the
`\d+` tag from matching. -/
theorem matchEnumValue000_neg {nm : List Char} (ds : List Char) (hnm : nm ≠ [])
    (hall : ∀ c ∈ nm, isWordChar c = true) :
    matchEnumValue000 (nm ++ ' ' :: '=' :: ' ' :: '-' :: (ds ++ [';'])) = none := by
  obtain ⟨c0, nm', rfl⟩ := List.exists_cons_of_ne_nil hnm
  have hc0 : isWordChar c0 = true := hall c0 (by simp)
  have h1 : pMany isSpaceChar ((c0 :: nm') ++ ' ' :: '=' :: ' ' :: '-' :: (ds ++ [';'])) = 0 :=
    pMany_cons_neg (wordChar_not_space hc0) _
  have h2 : pMany isWordChar ((c0 :: nm') ++ ' ' :: '=' :: ' ' :: '-' :: (ds ++ [';']))
      = (c0 :: nm').length := by
    rw [pMany_append_all hall, pMany_cons_neg (by decide : isWordChar ' ' = false), Nat.add_zero]
  have h3 : pMany isSpaceChar (' ' :: '=' :: ' ' :: '-' :: (ds ++ [';'])) = 1 := by
    rw [pMany_cons_pos (by decide : isSpaceChar ' ' = true),
      pMany_cons_neg (by decide : isSpaceChar '=' = false)]
  have h4 : pMany isSpaceChar (' ' :: '-' :: (ds ++ [';'])) = 1 := by
    rw [pMany_cons_pos (by decide : isSpaceChar ' ' = true),
      pMany_cons_neg (by decide : isSpaceChar '-' = false)]
  have h5 : pMany Char.isDigit ('-' :: (ds ++ [';'])) = 0 :=
    pMany_cons_neg (by decide : ('-' : Char).isDigit = false) _
  have hcond1 : ((c0 :: nm').length = 0) = False := by simp
  unfold matchEnumValue000
  simp only [h1, List.drop_zero, h2, hcond1, if_false, List.take_left, List.drop_left,
    h3, List.drop_succ_cons, List.drop_zero, h4, h5, if_pos rfl, if_true]

/-- C9 (amended).  Enum value tags are parsed by `\d+` only: for every
word-character name and non-empty digit run, a line `NAME = n;` is
recorded with `number` equal to the (non-negative) value of the digits and
the pending comments attached, while a line `NAME = -n;` does not match
the value pattern and is silently omitted (the walk merely clears the
pending comments); `EnumValueInfo.number` therefore never holds a negative
tag. -/
theorem enum_value_tag_amended :
    ∀ (nm ds : List Char), nm ≠ [] → (∀ c ∈ nm, isWordChar c = true) →
      ds ≠ [] → (∀ c ∈ ds, c.isDigit = true) →
      matchEnumValue000 (nm ++ ' ' :: '=' :: ' ' :: (ds ++ [';'])) = some (nm, ds, none) ∧
      matchEnumValue000 (nm ++ ' ' :: '=' :: ' ' :: '-' :: (ds ++ [';'])) = none ∧
      (∀ acc, enumLineStep matchEnumValue000 acc (nm ++ ' ' :: '=' :: ' ' :: (ds ++ [';']))
        = ⟨acc.values ++ [⟨nm, digitsVal ds, commentsJoin acc.pending none⟩], []⟩) ∧
      (∀ acc, enumLineStep matchEnumValue000 acc (nm ++ ' ' :: '=' :: ' ' :: '-' :: (ds ++ [';']))
        = ⟨acc.values, []⟩) := by
  intro nm ds hnm hall hds hdall
  have hpos := matchEnumValue000_pos hnm hall hds hdall
  have hneg := matchEnumValue000_neg ds hnm hall
  obtain ⟨c0, nm', rfl⟩ := List.exists_cons_of_ne_nil hnm
  have hc0 : isWordChar c0 = true := hall c0 (by simp)
  have hc0s : isSpaceChar c0 = false := wordChar_not_space hc0
  have hc0p : (('/' : Char) == c0) = false := by
    cases h : ('/' == c0) with
    | false => rfl
    | true =>
      exfalso
      have hs : ('/' : Char) = c0 := by simpa using h
      rw [← hs] at hc0
      exact absurd hc0 (by decide)
  have hshape1 : (c0 :: nm') ++ ' ' :: '=' :: ' ' :: (ds ++ [';'])
      = c0 :: ((nm' ++ ' ' :: '=' :: ' ' :: ds) ++ [';']) := by simp
  have hshape2 : (c0 :: nm') ++ ' ' :: '=' :: ' ' :: '-' :: (ds ++ [';'])
      = c0 :: ((nm' ++ ' ' :: '=' :: ' ' :: '-' :: ds) ++ [';']) := by simp
  have htrim1 : trimList ((c0 :: nm') ++ ' ' :: '=' :: ' ' :: (ds ++ [';']))
      = (c0 :: nm') ++ ' ' :: '=' :: ' ' :: (ds ++ [';']) := by
    rw [hshape1]; exact trimList_eq_self_of_sandwich hc0s (by decide)
  have htrim2 : trimList ((c0 :: nm') ++ ' ' :: '=' :: ' ' :: '-' :: (ds ++ [';']))
      = (c0 :: nm') ++ ' ' :: '=' :: ' ' :: '-' :: (ds ++ [';']) := by
    rw [hshape2]; exact trimList_eq_self_of_sandwich hc0s (by decide)
  have hpre1 : ((['/', '/'] : List Char).isPrefixOf
      ((c0 :: nm') ++ ' ' :: '=' :: ' ' :: (ds ++ [';']))) = false := by
    simp [List.isPrefixOf, hc0p]
  have hpre2 : ((['/', '/'] : List Char).isPrefixOf
      ((c0 :: nm') ++ ' ' :: '=' :: ' ' :: '-' :: (ds ++ [';']))) = false := by
    simp [List.isPrefixOf, hc0p]
  have hne1 : (c0 :: nm') ++ ' ' :: '=' :: ' ' :: (ds ++ [';']) ≠ [] := by simp
  have hne2 : (c0 :: nm') ++ ' ' :: '=' :: ' ' :: '-' :: (ds ++ [';']) ≠ [] := by simp
  have hbr1 : (c0 :: nm') ++ ' ' :: '=' :: ' ' :: (ds ++ [';']) ≠ ['{'] := by
    rw [hshape1]; simp
  have hbr1' : (c0 :: nm') ++ ' ' :: '=' :: ' ' :: (ds ++ [';']) ≠ ['}'] := by
    rw [hshape1]; simp
  have hbr2 : (c0 :: nm') ++ ' ' :: '=' :: ' ' :: '-' :: (ds ++ [';']) ≠ ['{'] := by
    rw [hshape2]; simp
  have hbr2' : (c0 :: nm') ++ ' ' :: '=' :: ' ' :: '-' :: (ds ++ [';']) ≠ ['}'] := by
    rw [hshape2]; simp
  exact ⟨hpos, hneg,
    fun acc => enumLineStep_value acc htrim1 hpre1 hne1 hbr1 hbr1' hpos,
    fun acc => enumLineStep_skip acc htrim2 hpre2 hne2 hbr2 hbr2' hneg⟩

/-- Witness for the amended C9, at `A = 7;` / `A = -7;`. -/
theorem enum_value_tag_amended_witness :
    matchEnumValue000 "A = 7;".toList = some ("A".toList, "7".toList, none) ∧
    matchEnumValue000 "A = -7;".toList = none := by
  have h := enum_value_tag_amended "A".toList "7".toList (by decide) (by decide)
    (by decide) (by decide)
  exact ⟨h.1, h.2.1⟩

/-! ### Locality of the matchers under truncation (`take`) -/

theorem pMany_take {p : Char → Bool} {xs : List Char} {m : Nat}
    (h : pMany p xs ≤ m) : pMany p (xs.take m) = pMany p xs := by
  induction xs generalizing m with
  | nil => simp [pMany]
  | cons c cs ih =>
    by_cases hc : p c
    · rw [pMany_cons_pos hc] at h ⊢
      obtain ⟨m', rfl⟩ : ∃ m', m = m' + 1 := ⟨m - 1, by omega⟩
      rw [List.take_succ_cons, pMany_cons_pos hc, ih (by omega)]
    · have hc' : p c = false := by simpa using hc
      rw [pMany_cons_neg hc'] at h ⊢
      match m with
      | 0 => simp [pMany]
      | m' + 1 => rw [List.take_succ_cons, pMany_cons_neg hc']

theorem pUntilChar_take {c : Char} {xs : List Char} {n m : Nat}
    (h : pUntilChar c xs = some n) (hm : n ≤ m) :
    pUntilChar c (xs.take m) = some n := by
  induction xs generalizing n m with
  | nil => simp [pUntilChar] at h
  | cons x xs' ih =>
    by_cases hx : x = c
    · rw [pUntilChar, if_pos hx] at h
      injection h with h; subst h
      obtain ⟨m', rfl⟩ : ∃ m', m = m' + 1 := ⟨m - 1, by omega⟩
      rw [List.take_succ_cons, pUntilChar, if_pos hx]
    · rw [pUntilChar, if_neg hx] at h
      match hrec : pUntilChar c xs' with
      | none => rw [hrec] at h; simp at h
      | some k =>
        rw [hrec] at h; simp at h; subst h
        obtain ⟨m', rfl⟩ : ∃ m', m = m' + 1 := ⟨m - 1, by omega⟩
        rw [List.take_succ_cons, pUntilChar, if_neg hx, ih hrec (by omega)]
        rfl

theorem pUntilChar_none_take {c : Char} {xs : List Char} (m : Nat)
    (h : pUntilChar c xs = none) : pUntilChar c (xs.take m) = none := by
  induction xs generalizing m with
  | nil => simp [pUntilChar]
  | cons x xs' ih =>
    by_cases hx : x = c
    · rw [pUntilChar, if_pos hx] at h; simp at h
    · rw [pUntilChar, if_neg hx] at h
      match m with
      | 0 => simp [pUntilChar]
      | m' + 1 =>
        rw [List.take_succ_cons, pUntilChar, if_neg hx]
        match hrec : pUntilChar c xs' with
        | none => rw [ih m' hrec]; rfl
        | some k => rw [hrec] at h; simp at h

theorem pUntilChar_bounds {c : Char} {xs : List Char} {n : Nat}
    (h : pUntilChar c xs = some n) : 1 ≤ n ∧ n ≤ xs.length := by
  induction xs generalizing n with
  | nil => simp [pUntilChar] at h
  | cons x xs' ih =>
    by_cases hx : x = c
    · rw [pUntilChar, if_pos hx] at h
      injection h with h; subst h; simp
    · rw [pUntilChar, if_neg hx] at h
      match hrec : pUntilChar c xs' with
      | none => rw [hrec] at h; simp at h
      | some k =>
        rw [hrec] at h; simp at h; subst h
        have := ih hrec
        simp; omega


theorem pUntilStarSlash_cons_ne {x : Char} {xs : List Char}
    (hne : ∀ l : List Char, x :: xs ≠ '*' :: '/' :: l) :
    pUntilStarSlash (x :: xs) = (pUntilStarSlash xs).map (· + 1) := by
  conv_lhs => unfold pUntilStarSlash
  split
  · rename_i heq
    simp at heq
  · rename_i heq
    exact absurd heq (hne _)
  · rename_i heq
    injection heq with h1 h2
    rw [h2]

theorem starslash_ne_take {x : Char} {xs : List Char} (m : Nat)
    (hne : ∀ l : List Char, x :: xs ≠ '*' :: '/' :: l) :
    ∀ l : List Char, x :: xs.take m ≠ '*' :: '/' :: l := by
  intro l hl
  injection hl with h1 h2
  match xs, m with
  | [], m => simp at h2
  | y :: ys, 0 => simp at h2
  | y :: ys, m' + 1 =>
    rw [List.take_succ_cons] at h2
    injection h2 with h3 _
    subst h1; subst h3
    exact hne ys rfl

theorem pUntilStarSlash_bounds {xs : List Char} {n : Nat}
    (h : pUntilStarSlash xs = some n) : 2 ≤ n ∧ n ≤ xs.length := by
  induction xs generalizing n with
  | nil => simp [pUntilStarSlash] at h
  | cons x xs' ih =>
    by_cases hss : ∃ l : List Char, x :: xs' = '*' :: '/' :: l
    · obtain ⟨l, hl⟩ := hss
      rw [hl] at h ⊢
      rw [show pUntilStarSlash ('*' :: '/' :: l) = some 2 from rfl] at h
      injection h with h; subst h
      simp
    · rw [pUntilStarSlash_cons_ne (fun l hl => hss ⟨l, hl⟩)] at h
      match hrec : pUntilStarSlash xs' with
      | none => rw [hrec] at h; simp at h
      | some k =>
        rw [hrec] at h; simp at h; subst h
        have := ih hrec
        simp; omega

theorem pUntilStarSlash_take {xs : List Char} {n m : Nat}
    (h : pUntilStarSlash xs = some n) (hm : n ≤ m) :
    pUntilStarSlash (xs.take m) = some n := by
  induction xs generalizing n m with
  | nil => simp [pUntilStarSlash] at h
  | cons x xs' ih =>
    have h2 : 2 ≤ n := (pUntilStarSlash_bounds h).1
    obtain ⟨m', rfl⟩ : ∃ m', m = m' + 1 := ⟨m - 1, by omega⟩
    rw [List.take_succ_cons]
    by_cases hss : ∃ l : List Char, x :: xs' = '*' :: '/' :: l
    · obtain ⟨l, hl⟩ := hss
      injection hl with hx hxs
      subst hx; subst hxs
      rw [show pUntilStarSlash ('*' :: '/' :: l) = some 2 from rfl] at h
      injection h with h; subst h
      obtain ⟨m2, rfl⟩ : ∃ m2, m' = m2 + 1 := ⟨m' - 1, by omega⟩
      rw [List.take_succ_cons]
      rfl
    · have hne : ∀ l : List Char, x :: xs' ≠ '*' :: '/' :: l :=
        fun l hl => hss ⟨l, hl⟩
      rw [pUntilStarSlash_cons_ne hne] at h
      match hrec : pUntilStarSlash xs' with
      | none => rw [hrec] at h; simp at h
      | some k =>
        rw [hrec] at h; simp at h
        rw [pUntilStarSlash_cons_ne (starslash_ne_take m' hne),
            ih hrec (by omega)]
        simp [h]

theorem pUntilStarSlash_none_take {xs : List Char} (m : Nat)
    (h : pUntilStarSlash xs = none) : pUntilStarSlash (xs.take m) = none := by
  induction xs generalizing m with
  | nil => simp [pUntilStarSlash]
  | cons x xs' ih =>
    by_cases hss : ∃ l : List Char, x :: xs' = '*' :: '/' :: l
    · obtain ⟨l, hl⟩ := hss
      rw [hl] at h
      rw [show pUntilStarSlash ('*' :: '/' :: l) = some 2 from rfl] at h
      simp at h
    · have hne : ∀ l : List Char, x :: xs' ≠ '*' :: '/' :: l :=
        fun l hl => hss ⟨l, hl⟩
      rw [pUntilStarSlash_cons_ne hne] at h
      match m with
      | 0 => simp [pUntilStarSlash]
      | m' + 1 =>
        rw [List.take_succ_cons,
            pUntilStarSlash_cons_ne (starslash_ne_take m' hne)]
        match hrec : pUntilStarSlash xs' with
        | none => rw [ih m' hrec]; rfl
        | some k => rw [hrec] at h; simp at h


theorem pCommentUnit_ne {xs : List Char}
    (h1 : ∀ l : List Char, xs ≠ '/' :: '/' :: l)
    (h2 : ∀ l : List Char, xs ≠ '/' :: '*' :: l) :
    pCommentUnit xs = none := by
  unfold pCommentUnit
  split
  next => exact absurd rfl (h1 _)
  next => exact absurd rfl (h2 _)
  next => rfl

theorem pCommentUnit_bounds {xs : List Char} {n : Nat}
    (h : pCommentUnit xs = some n) : 1 ≤ n ∧ n ≤ xs.length := by
  by_cases hss : ∃ l : List Char, xs = '/' :: '/' :: l
  · obtain ⟨rest, rfl⟩ := hss
    rw [show pCommentUnit ('/' :: '/' :: rest)
        = (pUntilChar '\n' rest).map (· + 2) from rfl] at h
    match hu : pUntilChar '\n' rest with
    | none => rw [hu] at h; simp at h
    | some k =>
      rw [hu] at h; simp at h
      have := pUntilChar_bounds hu
      simp; omega
  · by_cases hst : ∃ l : List Char, xs = '/' :: '*' :: l
    · obtain ⟨rest, rfl⟩ := hst
      rw [show pCommentUnit ('/' :: '*' :: rest)
          = (match pUntilStarSlash rest with
             | none => none
             | some k => some (2 + k + pMany isSpaceChar (rest.drop k)))
          from rfl] at h
      match hu : pUntilStarSlash rest with
      | none => rw [hu] at h; simp at h
      | some k =>
        rw [hu] at h
        injection h with h; subst h
        have hb := pUntilStarSlash_bounds hu
        have hw := pMany_le_length isSpaceChar (rest.drop k)
        simp [List.length_drop] at hw ⊢
        omega
    · rw [pCommentUnit_ne (fun l hl => hss ⟨l, hl⟩)
        (fun l hl => hst ⟨l, hl⟩)] at h
      cases h

theorem pCommentUnit_take {xs : List Char} {n m : Nat}
    (h : pCommentUnit xs = some n) (hm : n ≤ m) :
    pCommentUnit (xs.take m) = some n := by
  have hpos := pCommentUnit_bounds h
  by_cases hss : ∃ l : List Char, xs = '/' :: '/' :: l
  · obtain ⟨rest, rfl⟩ := hss
    rw [show pCommentUnit ('/' :: '/' :: rest)
        = (pUntilChar '\n' rest).map (· + 2) from rfl] at h
    match hu : pUntilChar '\n' rest with
    | none => rw [hu] at h; simp at h
    | some k =>
      rw [hu] at h; simp at h
      obtain ⟨m2, rfl⟩ : ∃ m2, m = m2 + 2 := ⟨m - 2, by omega⟩
      rw [List.take_succ_cons, List.take_succ_cons]
      rw [show pCommentUnit ('/' :: '/' :: rest.take m2)
          = (pUntilChar '\n' (rest.take m2)).map (· + 2) from rfl]
      rw [pUntilChar_take hu (by omega)]
      simp [h]
  · by_cases hst : ∃ l : List Char, xs = '/' :: '*' :: l
    · obtain ⟨rest, rfl⟩ := hst
      rw [show pCommentUnit ('/' :: '*' :: rest)
          = (match pUntilStarSlash rest with
             | none => none
             | some k => some (2 + k + pMany isSpaceChar (rest.drop k)))
          from rfl] at h
      match hu : pUntilStarSlash rest with
      | none => rw [hu] at h; simp at h
      | some k =>
        rw [hu] at h
        injection h with h
        have hb := pUntilStarSlash_bounds hu
        obtain ⟨m2, rfl⟩ : ∃ m2, m = m2 + 2 := ⟨m - 2, by omega⟩
        rw [List.take_succ_cons, List.take_succ_cons]
        rw [show pCommentUnit ('/' :: '*' :: rest.take m2)
            = (match pUntilStarSlash (rest.take m2) with
               | none => none
               | some k => some (2 + k + pMany isSpaceChar ((rest.take m2).drop k)))
            from rfl]
        rw [pUntilStarSlash_take hu (by omega)]
        dsimp only
        rw [List.drop_take m2 k rest]
        rw [pMany_take (by omega)]
        rw [h]
    · rw [pCommentUnit_ne (fun l hl => hss ⟨l, hl⟩)
        (fun l hl => hst ⟨l, hl⟩)] at h
      cases h

theorem twochar_ne_take {a b x y : Char} {xs : List Char} (m : Nat)
    (hne : ∀ l : List Char, x :: y :: xs ≠ a :: b :: l) :
    ∀ l : List Char, (x :: y :: xs).take m ≠ a :: b :: l := by
  intro l hl
  match m with
  | 0 => simp at hl
  | 1 => simp at hl
  | m' + 2 =>
    rw [List.take_succ_cons, List.take_succ_cons] at hl
    injection hl with e1 hl'
    injection hl' with e2 _
    subst e1; subst e2
    exact hne xs rfl

theorem pCommentUnit_none_take {xs : List Char} (m : Nat)
    (h : pCommentUnit xs = none) : pCommentUnit (xs.take m) = none := by
  match xs with
  | [] => simp [pCommentUnit]
  | [c] =>
    match m with
    | 0 => rfl
    | m' + 1 =>
      rw [show ([c].take (m' + 1)) = [c] from by simp]
      exact h
  | x :: y :: rest =>
    match m with
    | 0 => rfl
    | 1 =>
      rw [List.take_succ_cons, List.take_zero]
      exact pCommentUnit_ne (fun l hl => by simp at hl) (fun l hl => by simp at hl)
    | m' + 2 =>
      rw [List.take_succ_cons, List.take_succ_cons]
      by_cases hss : ∃ l : List Char, x :: y :: rest = '/' :: '/' :: l
      · obtain ⟨l, hl⟩ := hss
        injection hl with e1 hl'
        injection hl' with e2 e3
        subst e1; subst e2; subst e3
        rw [show pCommentUnit ('/' :: '/' :: rest)
            = (pUntilChar '\n' rest).map (· + 2) from rfl] at h
        match hu : pUntilChar '\n' rest with
        | some k => rw [hu] at h; simp at h
        | none =>
          rw [show pCommentUnit ('/' :: '/' :: rest.take m')
              = (pUntilChar '\n' (rest.take m')).map (· + 2) from rfl]
          rw [pUntilChar_none_take m' hu]
          rfl
      · by_cases hst : ∃ l : List Char, x :: y :: rest = '/' :: '*' :: l
        · obtain ⟨l, hl⟩ := hst
          injection hl with e1 hl'
          injection hl' with e2 e3
          subst e1; subst e2; subst e3
          rw [show pCommentUnit ('/' :: '*' :: rest)
              = (match pUntilStarSlash rest with
                 | none => none
                 | some k => some (2 + k + pMany isSpaceChar (rest.drop k)))
              from rfl] at h
          match hu : pUntilStarSlash rest with
          | some k => rw [hu] at h; simp at h
          | none =>
            rw [show pCommentUnit ('/' :: '*' :: rest.take m')
                = (match pUntilStarSlash (rest.take m') with
                   | none => none
                   | some k => some (2 + k + pMany isSpaceChar ((rest.take m').drop k)))
                from rfl]
            rw [pUntilStarSlash_none_take m' hu]
        · have h1 : ∀ l : List Char, x :: y :: rest ≠ '/' :: '/' :: l :=
            fun l hl => hss ⟨l, hl⟩
          have h2 : ∀ l : List Char, x :: y :: rest ≠ '/' :: '*' :: l :=
            fun l hl => hst ⟨l, hl⟩
          have r1 := twochar_ne_take (m' + 2) h1
          have r2 := twochar_ne_take (m' + 2) h2
          rw [List.take_succ_cons, List.take_succ_cons] at r1 r2
          exact pCommentUnit_ne r1 r2


theorem pCommentRunGo_succ : ∀ (f : Nat) (xs : List Char), xs.length ≤ f →
    pCommentRunGo (f + 1) xs = pCommentRunGo f xs := by
  intro f
  induction f with
  | zero =>
    intro xs hx
    have hnil : xs = [] := List.eq_nil_of_length_eq_zero (Nat.le_zero.mp hx)
    subst hnil
    rfl
  | succ f ih =>
    intro xs hx
    rw [show pCommentRunGo (f + 1 + 1) xs = (match pCommentUnit xs with
        | none => 0
        | some n => n + pCommentRunGo (f + 1) (xs.drop n)) from rfl]
    rw [show pCommentRunGo (f + 1) xs = (match pCommentUnit xs with
        | none => 0
        | some n => n + pCommentRunGo f (xs.drop n)) from rfl]
    match hu : pCommentUnit xs with
    | none => rfl
    | some n =>
      dsimp only
      have hb := pCommentUnit_bounds hu
      rw [ih (xs.drop n) (by rw [List.length_drop]; omega)]

theorem pCommentRunGo_fuel {xs : List Char} {f : Nat} (h : xs.length ≤ f) :
    pCommentRunGo f xs = pCommentRun xs := by
  unfold pCommentRun
  obtain ⟨k, rfl⟩ : ∃ k, f = xs.length + k := ⟨f - xs.length, by omega⟩
  clear h
  induction k with
  | zero => rfl
  | succ k ih =>
    rw [show xs.length + (k + 1) = (xs.length + k) + 1 from rfl]
    rw [pCommentRunGo_succ (xs.length + k) xs (by omega)]
    exact ih

theorem pCommentRunGo_take : ∀ (f : Nat) (xs : List Char) (m : Nat),
    pCommentRunGo f xs ≤ m → pCommentRunGo f (xs.take m) = pCommentRunGo f xs := by
  intro f
  induction f with
  | zero => intro xs m h; rfl
  | succ f ih =>
    intro xs m h
    rw [show pCommentRunGo (f + 1) xs = (match pCommentUnit xs with
        | none => 0
        | some n => n + pCommentRunGo f (xs.drop n)) from rfl] at h ⊢
    rw [show pCommentRunGo (f + 1) (xs.take m) = (match pCommentUnit (xs.take m) with
        | none => 0
        | some n => n + pCommentRunGo f ((xs.take m).drop n)) from rfl]
    match hu : pCommentUnit xs with
    | none =>
      rw [pCommentUnit_none_take m hu]
    | some n =>
      rw [hu] at h
      dsimp only at h
      have hn : n ≤ m := le_trans (Nat.le_add_right n _) h
      have hg : pCommentRunGo f (xs.drop n) ≤ m - n :=
        Nat.le_sub_of_add_le (by rw [Nat.add_comm]; exact h)
      dsimp only
      rw [pCommentUnit_take hu hn]
      dsimp only
      rw [List.drop_take m n xs]
      rw [ih (xs.drop n) (m - n) hg]

theorem pCommentRun_take {xs : List Char} {m : Nat} (h : pCommentRun xs ≤ m) :
    pCommentRun (xs.take m) = pCommentRun xs := by
  have h1 : pCommentRun (xs.take m) = pCommentRunGo xs.length (xs.take m) :=
    (pCommentRunGo_fuel (by rw [List.length_take]; omega)).symm
  have h2 := pCommentRunGo_take xs.length xs m (by unfold pCommentRun at h; exact h)
  rw [h1, h2]
  rfl


theorem pSpaces_take : ∀ (xs : List Char) (n m : Nat),
    pSpaces xs = some n → n ≤ m → pSpaces (xs.take m) = some n := by
  intro xs n m h hm
  unfold pSpaces at h ⊢
  injection h with h; subst h
  rw [pMany_take hm]

theorem pSpaces1_take : ∀ (xs : List Char) (n m : Nat),
    pSpaces1 xs = some n → n ≤ m → pSpaces1 (xs.take m) = some n := by
  intro xs n m h hm
  unfold pSpaces1 at h ⊢
  dsimp only at h ⊢
  by_cases h0 : pMany isSpaceChar xs = 0
  · rw [if_pos h0] at h; cases h
  · rw [if_neg h0] at h
    injection h with h; subst h
    rw [pMany_take hm, if_neg h0]

theorem pLit_take {pat xs : List Char} {n m : Nat}
    (h : pLit pat xs = some n) (hm : n ≤ m) : pLit pat (xs.take m) = some n := by
  obtain ⟨hk, rest, rfl⟩ := pLit_eq_some h
  subst hk
  rw [List.take_append_eq_append_take, List.take_of_length_le hm]
  exact pLit_self_append pat _

theorem pChar_take : ∀ {c : Char} (xs : List Char) (n m : Nat),
    pChar c xs = some n → n ≤ m → pChar c (xs.take m) = some n := by
  intro c xs n m h hm
  match xs with
  | [] => simp [pChar] at h
  | x :: xs' =>
    simp only [pChar] at h ⊢
    by_cases hx : x = c
    · rw [if_pos hx] at h
      injection h with h; subst h
      obtain ⟨m', rfl⟩ : ∃ m', m = m' + 1 := ⟨m - 1, by omega⟩
      rw [List.take_succ_cons]
      simp only [pChar]
      rw [if_pos hx]
    · rw [if_neg hx] at h; cases h

theorem pseq_eq_some {p q : List Char → Option Nat} {xs : List Char} {n : Nat}
    (h : pseq p q xs = some n) :
    ∃ a b, p xs = some a ∧ q (xs.drop a) = some b ∧ n = a + b := by
  unfold pseq at h
  cases hp : p xs with
  | none => rw [hp] at h; cases h
  | some a =>
    rw [hp] at h
    dsimp only at h
    cases hq : q (xs.drop a) with
    | none => rw [hq] at h; cases h
    | some b =>
      rw [hq] at h
      injection h with h
      exact ⟨a, b, rfl, hq, h.symm⟩

theorem pseq_take {p q : List Char → Option Nat}
    (hp : ∀ (xs : List Char) (n m : Nat), p xs = some n → n ≤ m → p (xs.take m) = some n)
    (hq : ∀ (xs : List Char) (n m : Nat), q xs = some n → n ≤ m → q (xs.take m) = some n) :
    ∀ (xs : List Char) (n m : Nat),
      pseq p q xs = some n → n ≤ m → pseq p q (xs.take m) = some n := by
  intro xs n m h hm
  obtain ⟨a, b, hpa, hqb, rfl⟩ := pseq_eq_some h
  unfold pseq
  rw [hp xs a m hpa (by omega)]
  dsimp only
  rw [List.drop_take m a xs]
  rw [hq (xs.drop a) b (m - a) hqb (by omega)]

theorem pChar_eq_one {c : Char} {xs : List Char} {k : Nat}
    (h : pChar c xs = some k) : k = 1 := by
  match xs with
  | [] => simp [pChar] at h
  | x :: xs' =>
    simp only [pChar] at h
    by_cases hx : x = c
    · rw [if_pos hx] at h; injection h with h; exact h.symm
    · rw [if_neg hx] at h; cases h

theorem openerChain_take (kw name : List Char) :
    ∀ (xs : List Char) (n m : Nat),
      pseq pSpaces (pseq (pLit kw) (pseq pSpaces1
        (pseq (pLit name) (pseq pSpaces (pChar '{'))))) xs = some n → n ≤ m →
      pseq pSpaces (pseq (pLit kw) (pseq pSpaces1
        (pseq (pLit name) (pseq pSpaces (pChar '{'))))) (xs.take m) = some n :=
  pseq_take pSpaces_take
    (pseq_take (fun _ _ _ h hm => pLit_take h hm)
      (pseq_take pSpaces1_take
        (pseq_take (fun _ _ _ h hm => pLit_take h hm)
          (pseq_take pSpaces_take (fun xs n m h hm => pChar_take xs n m h hm)))))

theorem openerChain_pos {kw name : List Char} {xs : List Char} {n : Nat}
    (h : pseq pSpaces (pseq (pLit kw) (pseq pSpaces1
        (pseq (pLit name) (pseq pSpaces (pChar '{'))))) xs = some n) :
    1 ≤ n := by
  obtain ⟨a1, b1, _, h1, rfl⟩ := pseq_eq_some h
  obtain ⟨a2, b2, _, h2, rfl⟩ := pseq_eq_some h1
  obtain ⟨a3, b3, _, h3, rfl⟩ := pseq_eq_some h2
  obtain ⟨a4, b4, _, h4, rfl⟩ := pseq_eq_some h3
  obtain ⟨a5, b5, _, h5, rfl⟩ := pseq_eq_some h4
  have := pChar_eq_one h5
  omega

theorem matchOpenerAt_take {kw name xs : List Char} {a n m : Nat}
    (h : matchOpenerAt kw name xs = some (a, n)) (hm : n ≤ m) :
    matchOpenerAt kw name (xs.take m) = some (a, n) := by
  unfold matchOpenerAt at h ⊢
  dsimp only at h ⊢
  cases hch : pseq pSpaces (pseq (pLit kw) (pseq pSpaces1
      (pseq (pLit name) (pseq pSpaces (pChar '{'))))) (xs.drop (pCommentRun xs)) with
  | none => rw [hch] at h; cases h
  | some b =>
    rw [hch] at h
    injection h with h
    injection h with ha hn
    have hrun : pCommentRun (xs.take m) = pCommentRun xs :=
      pCommentRun_take (show pCommentRun xs ≤ m by omega)
    rw [hrun]
    rw [List.drop_take m (pCommentRun xs) xs]
    rw [openerChain_take kw name (xs.drop (pCommentRun xs)) b
        (m - pCommentRun xs) hch (by omega)]
    dsimp only
    rw [ha] at hn ⊢
    rw [hn]

theorem matchOpenerAt_pos {kw name xs : List Char} {a n : Nat}
    (h : matchOpenerAt kw name xs = some (a, n)) : a < n := by
  unfold matchOpenerAt at h
  dsimp only at h
  cases hch : pseq pSpaces (pseq (pLit kw) (pseq pSpaces1
      (pseq (pLit name) (pseq pSpaces (pChar '{'))))) (xs.drop (pCommentRun xs)) with
  | none => rw [hch] at h; cases h
  | some b =>
    rw [hch] at h
    injection h with h
    injection h with ha hn
    have := openerChain_pos hch
    omega


theorem findOpenerAux_inv {kw name : List Char} :
    ∀ (xs : List Char) (i s a n : Nat),
      findOpenerAux kw name xs i = some (s, a, n) →
      i ≤ s ∧ matchOpenerAt kw name (xs.drop (s - i)) = some (a, n) := by
  intro xs
  induction xs with
  | nil =>
    intro i s a n h
    rw [findOpenerAux] at h
    cases hmo : matchOpenerAt kw name ([] : List Char) with
    | none => rw [hmo] at h; cases h
    | some p =>
      obtain ⟨a1, n1⟩ := p
      rw [hmo] at h
      injection h with h
      injection h with h1 h
      injection h with h2 h3
      subst h1; subst h2; subst h3
      exact ⟨le_refl i, by simpa using hmo⟩
  | cons c rest ih =>
    intro i s a n h
    rw [findOpenerAux] at h
    cases hmo : matchOpenerAt kw name (c :: rest) with
    | none =>
      rw [hmo] at h
      dsimp only at h
      obtain ⟨hle, hmatch⟩ := ih (i + 1) s a n h
      refine ⟨by omega, ?_⟩
      rw [show s - i = (s - (i + 1)) + 1 from by omega, List.drop_succ_cons]
      exact hmatch
    | some p =>
      obtain ⟨a1, n1⟩ := p
      rw [hmo] at h
      injection h with h
      injection h with h1 h
      injection h with h2 h3
      subst h1; subst h2; subst h3
      refine ⟨le_refl i, ?_⟩
      rw [Nat.sub_self, List.drop_zero]
      exact hmo

theorem findCloseGo_ge : ∀ (xs : List Char) (cnt : Int) (i j : Nat),
    findCloseGo xs cnt i = some j → i ≤ j := by
  intro xs
  induction xs with
  | nil => intro cnt i j h; simp [findCloseGo] at h
  | cons c cs ih =>
    intro cnt i j h
    rw [show findCloseGo (c :: cs) cnt i
        = (if c = '{' then findCloseGo cs (cnt + 1) (i + 1)
           else if c = '}' then
             (if cnt - 1 = 0 then some i else findCloseGo cs (cnt - 1) (i + 1))
           else findCloseGo cs cnt (i + 1)) from rfl] at h
    by_cases h1 : c = '{'
    · rw [if_pos h1] at h
      have := ih _ _ _ h
      omega
    · rw [if_neg h1] at h
      by_cases h2 : c = '}'
      · rw [if_pos h2] at h
        by_cases h3 : cnt - 1 = 0
        · rw [if_pos h3] at h
          injection h with h
          omega
        · rw [if_neg h3] at h
          have := ih _ _ _ h
          omega
      · rw [if_neg h2] at h
        have := ih _ _ _ h
        omega

theorem findCloseGo_take : ∀ (xs : List Char) (cnt : Int) (i j m : Nat),
    findCloseGo xs cnt i = some j → j + 1 ≤ i + m →
    findCloseGo (xs.take m) cnt i = some j := by
  intro xs
  induction xs with
  | nil => intro cnt i j m h hm; simp [findCloseGo] at h
  | cons c cs ih =>
    intro cnt i j m h hm
    have hge := findCloseGo_ge (c :: cs) cnt i j h
    obtain ⟨m2, rfl⟩ : ∃ m2, m = m2 + 1 := ⟨m - 1, by omega⟩
    rw [List.take_succ_cons]
    rw [show findCloseGo (c :: cs) cnt i
        = (if c = '{' then findCloseGo cs (cnt + 1) (i + 1)
           else if c = '}' then
             (if cnt - 1 = 0 then some i else findCloseGo cs (cnt - 1) (i + 1))
           else findCloseGo cs cnt (i + 1)) from rfl] at h
    rw [show findCloseGo (c :: cs.take m2) cnt i
        = (if c = '{' then findCloseGo (cs.take m2) (cnt + 1) (i + 1)
           else if c = '}' then
             (if cnt - 1 = 0 then some i else findCloseGo (cs.take m2) (cnt - 1) (i + 1))
           else findCloseGo (cs.take m2) cnt (i + 1)) from rfl]
    by_cases h1 : c = '{'
    · rw [if_pos h1] at h ⊢
      exact ih _ _ _ _ h (by omega)
    · rw [if_neg h1] at h ⊢
      by_cases h2 : c = '}'
      · rw [if_pos h2] at h ⊢
        by_cases h3 : cnt - 1 = 0
        · rw [if_pos h3] at h ⊢
          exact h
        · rw [if_neg h3] at h ⊢
          exact ih _ _ _ _ h (by omega)
      · rw [if_neg h2] at h ⊢
        exact ih _ _ _ _ h (by omega)


theorem findOpenerAux_of_match {kw name xs : List Char} {i a n : Nat}
    (h : matchOpenerAt kw name xs = some (a, n)) :
    findOpenerAux kw name xs i = some (i, a, n) := by
  cases xs with
  | nil => rw [findOpenerAux, h]
  | cons c rest => rw [findOpenerAux, h]

theorem parseMessage_eq_core (name T : List Char) :
    ∃ recM, parseMessage name T = parseMessageCore recM name T := by
  unfold parseMessage
  cases hf : T.length with
  | zero => exact ⟨fun nm _ => emptyMessage nm, rfl⟩
  | succ f => exact ⟨parseMessageGo f, rfl⟩

theorem parseMessageCore_raw_inv {recM : List Char → List Char → MessageInfo}
    {name T : List Char}
    (h : (parseMessageCore recM name T).rawSource ≠ []) :
    ∃ s a len r, findMessageOpener name T = some (s, a, len) ∧
      findCloseRel (T.drop (s + len - 1)) = some r := by
  unfold parseMessageCore at h
  cases hop : findMessageOpener name T with
  | none => rw [hop] at h; exact absurd rfl h
  | some p =>
    obtain ⟨s, p2⟩ := p
    obtain ⟨a, len⟩ := p2
    rw [hop] at h
    dsimp only at h
    cases hcl : findCloseRel (T.drop (s + len - 1)) with
    | none => rw [hcl] at h; exact absurd rfl h
    | some r => exact ⟨s, a, len, r, rfl, hcl⟩

theorem parseMessageCore_success (recM : List Char → List Char → MessageInfo)
    {name T : List Char} {s a len r : Nat}
    (hop : findMessageOpener name T = some (s, a, len))
    (hcl : findCloseRel (T.drop (s + len - 1)) = some r) :
    (parseMessageCore recM name T).rawSource
        = (T.drop s).take (s + len - 1 + r + 1 - s)
    ∧ (parseMessageCore recM name T).fields
        = (msgBodyPass (splitNl ((T.drop (s + len - 1 + 1)).take
            (s + len - 1 + r - (s + len - 1 + 1))))).fields := by
  unfold parseMessageCore
  rw [hop]
  dsimp only
  rw [hcl]
  exact ⟨rfl, rfl⟩

/-- **C7**: `parseMessage` is idempotent over its extracted span: whenever
`parseMessage name T` locates the opener and its matching closing brace
(equivalently, produces a non-empty `rawSource`), re-parsing that
`rawSource` alone for the same name yields a field list identical,
field for field (name, type, number, label, comment, order), to
`(parseMessage name T).fields`. -/
theorem parse_idempotent_fields (name T : List Char)
    (h : (parseMessage name T).rawSource ≠ []) :
    (parseMessage name ((parseMessage name T).rawSource)).fields
      = (parseMessage name T).fields := by
  obtain ⟨recM, hT⟩ := parseMessage_eq_core name T
  rw [hT] at h ⊢
  obtain ⟨s, a, len, r, hop, hcl⟩ := parseMessageCore_raw_inv h
  have hop' : findOpenerAux msgKw name T 0 = some (s, a, len) := hop
  have hmo : matchOpenerAt msgKw name (T.drop s) = some (a, len) := by
    have h2 := (findOpenerAux_inv T 0 s a len hop').2
    rw [Nat.sub_zero] at h2
    exact h2
  have hlen : a < len := matchOpenerAt_pos hmo
  obtain ⟨hraw, hfld⟩ := parseMessageCore_success recM hop hcl
  rw [show s + len - 1 + r + 1 - s = len + r from by omega] at hraw
  rw [hraw]
  obtain ⟨recM2, hR⟩ := parseMessage_eq_core name ((T.drop s).take (len + r))
  rw [hR]
  have hmo2 : matchOpenerAt msgKw name ((T.drop s).take (len + r)) = some (a, len) :=
    matchOpenerAt_take hmo (by omega)
  have hop2 : findMessageOpener name ((T.drop s).take (len + r)) = some (0, a, len) :=
    findOpenerAux_of_match hmo2
  have hdropraw : ((T.drop s).take (len + r)).drop (len - 1)
      = (T.drop (s + len - 1)).take (r + 1) := by
    rw [List.drop_take (len + r) (len - 1) (T.drop s), List.drop_drop]
    rw [show len + r - (len - 1) = r + 1 from by omega]
    rw [show s + (len - 1) = s + len - 1 from by omega]
  have hcl2 : findCloseRel (((T.drop s).take (len + r)).drop (0 + len - 1))
      = some r := by
    rw [Nat.zero_add, hdropraw]
    unfold findCloseRel at hcl ⊢
    exact findCloseGo_take _ 0 0 r (r + 1) hcl (by omega)
  obtain ⟨hraw2, hfld2⟩ := parseMessageCore_success recM2 hop2 hcl2
  rw [hfld2, hfld]
  rw [show (0 : Nat) + len - 1 + r - (0 + len - 1 + 1) = r - 1 from by omega]
  rw [show (0 : Nat) + len - 1 + 1 = len from by omega]
  rw [show s + len - 1 + r - (s + len - 1 + 1) = r - 1 from by omega]
  rw [show s + len - 1 + 1 = s + len from by omega]
  rw [show ((T.drop s).take (len + r)).drop len = (T.drop (s + len)).take r from by
    rw [List.drop_take (len + r) len (T.drop s), List.drop_drop]
    rw [show len + r - len = r from by omega]]
  rw [List.take_take]
  rw [show (r - 1) ⊓ r = r - 1 from by omega]

/-- Witness for C7 at a concrete message. -/
theorem parse_idempotent_fields_witness :
    (parseMessage "M".toList "message M { int32 x = 1; }".toList).rawSource ≠ [] ∧
    (parseMessage "M".toList
        ((parseMessage "M".toList "message M { int32 x = 1; }".toList).rawSource)).fields
      = (parseMessage "M".toList "message M { int32 x = 1; }".toList).fields :=
  ⟨by decide, parse_idempotent_fields _ _ (by decide)⟩

end Proto3
